import Mathlib

/-!
Verification development for the hexagonal Minesweeper board engine of
HexaSweeper (`src/store.ts`).

The engine state lives in a single store.  Cell keys in the source are the
strings `p-q-r` for axial coordinates `(q, r)`; `getNeighbors` parses the two
integers back out of the key.  For every key the repository ever builds
(`resetGame` and the grid builders use `q, r` in `[0, 50)`), the string codec
is a bijection onto the pair `(q, r)`, so the embedding uses the pair itself
as the key type.

Numeric notes.  `Math.floor(totalCells * 0.2)` and `Math.floor(totalCells * 0.1)`
are computed in binary floating point in the source; for every list length `n`
(far below `2^53`) the double `0.2` satisfies `fl(0.2) = 0.2·(1 + 2⁻⁵⁴)`, and
`fl(n · fl(0.2))` floors to exactly `n / 5` (similarly `0.1` and `n / 10`), so
the embedding uses natural-number division.

Randomness: `Math.random()` draws are modeled as a stream `Nat → Nat` of chosen
indices; the source always draws an index in `[0, totalCells)`, which the model
mirrors by reducing the draw modulo the list length.  Unbounded loops over the
draws are modeled with explicit fuel; `none` means the loop did not converge
within the given fuel (the JavaScript loop would still be running).
-/

/-- Axial hex coordinate, the decoded form of the source key string `p-q-r`. -/
abbrev Key := Int × Int

/-- The six axial direction offsets from `getNeighbors` (`store.ts` lines 15-17). -/
def hexOffsets : List Key := [(1, 0), (1, -1), (0, -1), (-1, 0), (-1, 1), (0, 1)]

/-- Neighbor enumeration of `getNeighbors` (`store.ts` lines 6-28): apply the six
axial offsets and keep the coordinates present in the board layout (the source
tests membership in `pillarMap`, whose key set is the key set of the pillar
config list). -/
def getNeighbors (k : Key) (pillars : List Key) : List Key :=
  (hexOffsets.map (fun o => (k.1 + o.1, k.2 + o.2))).filter (fun n => decide (n ∈ pillars))

/-- Per-cell state, as in the `CellState` interface of `store.ts`.  The optional
field `isImmortalMine` is initialized to `false` everywhere in the source, so it
is modeled as a plain `Bool`. -/
structure CellState where
  isMine : Bool
  isRevealed : Bool
  isFlagged : Bool
  neighborMineCount : Nat
  isImmortalMine : Bool
deriving DecidableEq

/-- Session status (`gameStatus` in the source). -/
inductive GameStatus where
  | playing
  | won
  | lost
deriving DecidableEq

/-- The board-engine part of the store state (`GameState` in `store.ts`): the
rendering, camera, audio and debug fields are out of scope.  `cells` is the
`cellStates` record, modeled as a partial map; a key maps to `none` exactly
when the record has no entry for it. -/
structure GameState where
  pillars : List Key
  cells : Key → Option CellState
  gameStatus : GameStatus
  mineCount : Nat
  flagCount : Int
  revealQueue : List Key
  isRevealing : Bool
  immortalMode : Bool

/-- Point update of the cell map, the effect of `cellStates[key] = c`. -/
def setCell (cells : Key → Option CellState) (k : Key) (c : CellState) :
    Key → Option CellState :=
  fun x => if x = k then some c else cells x

/-- Boolean reading of a cell predicate at one key (false on missing cells). -/
def cellProp (s : GameState) (p : CellState → Bool) (k : Key) : Bool :=
  match s.cells k with
  | some c => p c
  | none => false

/-- Count of layout cells satisfying a predicate; this is the model of the
source pattern `Object.values(cellStates).filter(p).length`, since the key set
of the `cellStates` record is exactly the key set of `pillarConfigs`. -/
def countCells (s : GameState) (p : CellState → Bool) : Nat :=
  s.pillars.countP (cellProp s p)

/-- Number of unrevealed non-mine cells (`unrevealedSafeCells`, `store.ts` line 510). -/
def countSafeUnrevealed (s : GameState) : Nat :=
  countCells s (fun c => !c.isMine && !c.isRevealed)

/-- Number of revealed cells of every kind (`revealedCount`, `store.ts` line 352). -/
def countRevealed (s : GameState) : Nat :=
  countCells s (fun c => c.isRevealed)

/-- Number of revealed non-mine cells. -/
def countRevealedSafe (s : GameState) : Nat :=
  countCells s (fun c => !c.isMine && c.isRevealed)

/-- Number of mine cells. -/
def countMines (s : GameState) : Nat :=
  countCells s (fun c => c.isMine)

/-- Number of flagged cells. -/
def countFlagged (s : GameState) : Nat :=
  countCells s (fun c => c.isFlagged)

/-- Number of flagged cells that are not immortal-revealed mines. -/
def countFlaggedProper (s : GameState) : Nat :=
  countCells s (fun c => c.isFlagged && !c.isImmortalMine)

/-- Number of unrevealed cells of every kind. -/
def countUnrevealed (s : GameState) : Nat :=
  countCells s (fun c => !c.isRevealed)

/-- One pass of the anti-clustering placement loop of `generateSolvablePuzzle`
(`store.ts` lines 41-55): repeatedly draw a random pillar, accept it as a mine
when it has fewer than 3 already-placed neighboring mines (a `Set`, so adding a
present key is a no-op), until `maxMines` mines are placed.  The source loop has
no iteration bound; `fuel` counts remaining iterations and `none` means the
loop was still running when the fuel ran out. -/
def placeMinesLoop (pillars : List Key) (stream : Nat → Nat) (maxMines : Nat) :
    Nat → Nat → List Key → Option (List Key)
  | 0, _, mines =>
      if mines.length ≥ maxMines then some mines else none
  | fuel + 1, i, mines =>
      if mines.length ≥ maxMines then some mines
      else
        let candidate := pillars.getD (stream i % pillars.length) ((0 : Int), (0 : Int))
        let nbrMines :=
          ((getNeighbors candidate pillars).filter (fun n => decide (n ∈ mines))).length
        let mines2 :=
          if nbrMines < 3 then
            (if candidate ∈ mines then mines else candidate :: mines)
          else mines
        placeMinesLoop pillars stream maxMines fuel (i + 1) mines2

/-- Mine placement, `generateSolvablePuzzle` (`store.ts` lines 32-72).  The
density cap is `maxMineCount = min(target, floor(totalCells / 5))` (line 34).
The `for (attempt ...)` loop body ends in an unconditional `return` (line 59,
the solvability test is disabled), so the function is fully determined by the
first attempt and the simple-random fallback of lines 62-71 is unreachable dead
code; non-convergence of the placement loop means the source function never
returns, which the model renders as `none`.  The result pairs the mine key list
with `actualMineCount = minePositions.size`. -/
def generateSolvablePuzzle (pillars : List Key) (target : Nat) (stream : Nat → Nat)
    (fuel : Nat) : Option (List Key × Nat) :=
  let maxMineCount := min target (pillars.length / 5)
  (placeMinesLoop pillars stream maxMineCount fuel 0 []).map (fun m => (m, m.length))

/-- The unreachable fallback placement of `store.ts` lines 62-71, kept for the
record: `min(maxMineCount, floor(totalCells / 10))` draws are inserted into the
mine set without any constraint (duplicated draws collapse). -/
def fallbackPlacement (pillars : List Key) (target : Nat) (stream : Nat → Nat) :
    List Key :=
  let maxMineCount := min target (pillars.length / 5)
  let simpleMineCount := min maxMineCount (pillars.length / 10)
  (List.range simpleMineCount).foldl
    (fun mines i =>
      let k := pillars.getD (stream i % pillars.length) ((0 : Int), (0 : Int))
      if k ∈ mines then mines else k :: mines)
    []

/-- Session construction, `initializeGame` (`store.ts` lines 249-296): build a
cell for every pillar key, mark the generated mine positions, compute each
cell neighbor mine count from the six axial offsets restricted to the layout,
and start with status `playing`, `flagCount = 0` and the generated mine count.
A fresh store has an empty `revealQueue` and `isRevealing = false` (the action
leaves those fields untouched).  `immortalMode` is a separate store flag chosen
by the UI before play; it is a parameter here. -/
def initializeGame (pillars : List Key) (target : Nat) (stream : Nat → Nat)
    (fuel : Nat) (immortal : Bool) : Option GameState :=
  (generateSolvablePuzzle pillars target stream fuel).map (fun pr =>
    { pillars := pillars
      cells := fun k =>
        if k ∈ pillars then
          some { isMine := decide (k ∈ pr.1)
                 isRevealed := false
                 isFlagged := false
                 neighborMineCount :=
                   ((getNeighbors k pillars).filter (fun n => decide (n ∈ pr.1))).length
                 isImmortalMine := false }
        else none
      gameStatus := GameStatus.playing
      mineCount := pr.2
      flagCount := 0
      revealQueue := []
      isRevealing := false
      immortalMode := immortal })

/-- Reveal request, `addToRevealQueue` (`store.ts` lines 413-427): silently
ignored when the cell is missing, already revealed, flagged, or the game is not
playing; otherwise append the key to the queue and set `isRevealing`. -/
def addToRevealQueue (s : GameState) (k : Key) : GameState :=
  match s.cells k with
  | none => s
  | some cell =>
      if cell.isRevealed ∨ cell.isFlagged ∨ s.gameStatus ≠ GameStatus.playing then s
      else { s with revealQueue := s.revealQueue ++ [k], isRevealing := true }

/-- Flag toggle, `toggleFlag` (`store.ts` lines 359-376): no-op unless the game
is playing and the cell exists and is unrevealed; otherwise flip `isFlagged`
(preserving `isImmortalMine`) and move `flagCount` by plus or minus one. -/
def toggleFlag (s : GameState) (k : Key) : GameState :=
  if s.gameStatus ≠ GameStatus.playing then s
  else
    match s.cells k with
    | none => s
    | some cell =>
        if cell.isRevealed then s
        else
          let newFlagged := !cell.isFlagged
          { s with
            cells := setCell s.cells k { cell with isFlagged := newFlagged }
            flagCount := s.flagCount + (if newFlagged then 1 else -1) }

/-- Reveal of every mine on loss (`store.ts` lines 464-469). -/
def revealAllMines (cells : Key → Option CellState) : Key → Option CellState :=
  fun x =>
    match cells x with
    | some c => some (if c.isMine then { c with isRevealed := true } else c)
    | none => none

/-- Neighbor keys pushed to the front of the queue when a zero-count cell is
revealed (`store.ts` lines 496-503): in-layout neighbors that exist in the cell
map, are unrevealed, unflagged and not already queued. -/
def cascadeNeighbors (pillars : List Key) (cells : Key → Option CellState)
    (k : Key) (q : List Key) : List Key :=
  (getNeighbors k pillars).filter (fun n =>
    (match cells n with
     | some c => !c.isRevealed && !c.isFlagged
     | none => false) && !(decide (n ∈ q)))

/-- One step of the queue cascade, `processRevealQueue` (`store.ts` lines
429-516).  Empty queue: clear `isRevealing`.  Otherwise pop the front key;
discard it when the game is over or the cell is missing, revealed or flagged.
A mine in immortal mode becomes revealed, flagged and immortal and processing
continues; a mine in normal mode reveals all mines, sets `lost` and clears the
queue.  A safe cell is revealed (clearing its flag bit); a zero-count cell
pushes its eligible neighbors to the front of the queue; if no unrevealed safe
cell remains the status becomes `won` and the queue is cleared. -/
def processRevealQueue (s : GameState) : GameState :=
  match s.revealQueue with
  | [] => { s with isRevealing := false }
  | k :: newQueue =>
      match s.cells k with
      | none => { s with revealQueue := newQueue }
      | some cell =>
          if s.gameStatus ≠ GameStatus.playing ∨ cell.isRevealed ∨ cell.isFlagged then
            { s with revealQueue := newQueue }
          else if cell.isMine then
            if s.immortalMode then
              { s with
                cells := setCell s.cells k
                  { cell with isRevealed := true, isFlagged := true, isImmortalMine := true }
                revealQueue := newQueue }
            else
              { s with
                cells := revealAllMines s.cells
                gameStatus := GameStatus.lost
                revealQueue := []
                isRevealing := false }
          else
            let cells2 := setCell s.cells k { cell with isRevealed := true, isFlagged := false }
            let queue2 :=
              if cell.neighborMineCount = 0 ∧ ¬cell.isMine then
                cascadeNeighbors s.pillars cells2 k newQueue ++ newQueue
              else newQueue
            if countSafeUnrevealed { s with cells := cells2 } = 0 then
              { s with
                cells := cells2
                gameStatus := GameStatus.won
                revealQueue := []
                isRevealing := false }
            else
              { s with cells := cells2, revealQueue := queue2 }

/-- Synchronous recursive reveal, `revealCell` (`store.ts` lines 298-357):
reveal the cell, end the game (or immortal-flag the mine) on a mine, recurse
into the six in-layout neighbors when the count is zero, then compare the total
revealed count against `totalCells - mineCount`.  The source recursion has no
depth bound; `fuel` bounds the recursion depth in the model. -/
def revealCell : Nat → GameState → Key → GameState
  | 0, s, _ => s
  | fuel + 1, s, k =>
      if s.gameStatus ≠ GameStatus.playing then s
      else
        match s.cells k with
        | none => s
        | some cell =>
            if cell.isRevealed ∨ cell.isFlagged then s
            else if cell.isMine then
              if s.immortalMode then
                { s with
                  cells := setCell s.cells k
                    { cell with isRevealed := true, isFlagged := true, isImmortalMine := true } }
              else
                { s with
                  cells := setCell s.cells k { cell with isRevealed := true }
                  gameStatus := GameStatus.lost }
            else
              let s1 := { s with cells := setCell s.cells k { cell with isRevealed := true } }
              let s2 :=
                if cell.neighborMineCount = 0 then
                  (getNeighbors k s.pillars).foldl (fun t n => revealCell fuel t n) s1
                else s1
              if (countRevealed s2 : Int) = (s2.pillars.length : Int) - (s.mineCount : Int) then
                { s2 with gameStatus := GameStatus.won }
              else s2

/-- Iterating `processRevealQueue` until the queue is empty, one call per
external tick (`store.ts` drives this with a timer); `fuel` bounds the number
of ticks. -/
def processAll : Nat → GameState → GameState
  | 0, s => s
  | fuel + 1, s =>
      if s.revealQueue = [] then s
      else processAll fuel (processRevealQueue s)

/-- The synchronous part of `resetGame` (`store.ts` lines 518-530): wipe the
board and all session bookkeeping back to an empty playing state.  The delayed
regeneration in the `setTimeout` callback is a later `initializeGame` call. -/
def resetGame (s : GameState) : GameState :=
  { s with
    pillars := []
    cells := fun _ => none
    gameStatus := GameStatus.playing
    mineCount := 0
    flagCount := 0
    revealQueue := []
    isRevealing := false }

/-- Command alphabet of the engine as seen by the presentation layer (the three
session mutators; `resetGame` is treated separately where a claim includes it). -/
inductive Cmd where
  | enqueue (k : Key)
  | process
  | flag (k : Key)

/-- Semantics of one command. -/
def step (s : GameState) : Cmd → GameState
  | Cmd.enqueue k => addToRevealQueue s k
  | Cmd.process => processRevealQueue s
  | Cmd.flag k => toggleFlag s k

/-- Running a command sequence from a state. -/
def run (s : GameState) (cmds : List Cmd) : GameState :=
  cmds.foldl step s

/-- Command alphabet extended with `resetGame`. -/
inductive CmdR where
  | enqueue (k : Key)
  | process
  | flag (k : Key)
  | reset

/-- Semantics of one extended command. -/
def stepR (s : GameState) : CmdR → GameState
  | CmdR.enqueue k => addToRevealQueue s k
  | CmdR.process => processRevealQueue s
  | CmdR.flag k => toggleFlag s k
  | CmdR.reset => resetGame s

/-- Running an extended command sequence from a state. -/
def runR (s : GameState) (cmds : List CmdR) : GameState :=
  cmds.foldl stepR s

/-- True when the command is not a flag toggle. -/
def Cmd.noFlag : Cmd → Bool
  | Cmd.flag _ => false
  | _ => true

/-! ### Basic frame lemmas -/

theorem addToRevealQueue_missing (s : GameState) (k : Key) (h : s.cells k = none) :
    addToRevealQueue s k = s := by
  unfold addToRevealQueue
  rw [h]

theorem addToRevealQueue_skip (s : GameState) (k : Key) (c : CellState)
    (h : s.cells k = some c)
    (hskip : c.isRevealed = true ∨ c.isFlagged = true ∨ s.gameStatus ≠ GameStatus.playing) :
    addToRevealQueue s k = s := by
  unfold addToRevealQueue
  rw [h]
  exact if_pos hskip

theorem toggleFlag_missing (s : GameState) (k : Key) (h : s.cells k = none) :
    toggleFlag s k = s := by
  unfold toggleFlag
  split
  · rfl
  · rw [h]

theorem toggleFlag_revealed (s : GameState) (k : Key) (c : CellState)
    (h : s.cells k = some c) (hr : c.isRevealed = true) :
    toggleFlag s k = s := by
  unfold toggleFlag
  split
  · rfl
  · rw [h]
    simp [hr]

theorem toggleFlag_terminal (s : GameState) (k : Key)
    (h : s.gameStatus ≠ GameStatus.playing) : toggleFlag s k = s := by
  unfold toggleFlag
  simp [h]

theorem addToRevealQueue_terminal (s : GameState) (k : Key)
    (h : s.gameStatus ≠ GameStatus.playing) : addToRevealQueue s k = s := by
  unfold addToRevealQueue
  cases hc : s.cells k with
  | none => rfl
  | some c => simp [h]

/-- Any command from a terminal state with an empty queue leaves the cell map,
the status and the queue unchanged (the only possible write is clearing
`isRevealing`). -/
theorem run_terminal_frozen (cmds : List Cmd) :
    ∀ s : GameState, s.gameStatus ≠ GameStatus.playing → s.revealQueue = [] →
      (run s cmds).cells = s.cells ∧ (run s cmds).gameStatus = s.gameStatus ∧
      (run s cmds).revealQueue = [] := by
  induction cmds with
  | nil => intro s _ hq; exact ⟨rfl, rfl, hq⟩
  | cons cmd rest ih =>
      intro s hst hq
      have hstep : (step s cmd).cells = s.cells ∧ (step s cmd).gameStatus = s.gameStatus ∧
          (step s cmd).revealQueue = [] := by
        cases cmd with
        | enqueue k =>
            have he : step s (Cmd.enqueue k) = s := addToRevealQueue_terminal s k hst
            rw [he]
            exact ⟨rfl, rfl, hq⟩
        | process =>
            have he : step s Cmd.process = { s with isRevealing := false } := by
              show processRevealQueue s = _
              unfold processRevealQueue
              rw [hq]
            rw [he]
            exact ⟨rfl, rfl, hq⟩
        | flag k =>
            have he : step s (Cmd.flag k) = s := toggleFlag_terminal s k hst
            rw [he]
            exact ⟨rfl, rfl, hq⟩
      have hrun : run s (cmd :: rest) = run (step s cmd) rest := rfl
      have ih2 := ih (step s cmd) (by rw [hstep.2.1]; exact hst) hstep.2.2
      rw [hrun]
      exact ⟨ih2.1.trans hstep.1, ih2.2.1.trans hstep.2.1, ih2.2.2⟩

/-! ### Concrete fixtures used by witnesses and counterexamples -/

/-- The state of a freshly created store before any game is initialized. -/
def wEmptyState : GameState :=
  { pillars := [], cells := fun _ => none, gameStatus := GameStatus.playing,
    mineCount := 0, flagCount := 0, revealQueue := [], isRevealing := false,
    immortalMode := false }

/-- Two adjacent cells in a row. -/
def wLayout2 : List Key := [(0, 0), (1, 0)]

/-- A draw stream that always picks index 0. -/
def wStream0 : Nat → Nat := fun _ => 0

/-- Two-cell board with zero mines, normal mode. -/
def wBoard2 : GameState := (initializeGame wLayout2 0 wStream0 1 false).getD wEmptyState

/-- Five cells in a row. -/
def wLayout5 : List Key := [(0, 0), (1, 0), (2, 0), (3, 0), (4, 0)]

/-- Five-cell board with one mine at `(0,0)`, normal mode. -/
def wBoard5 : GameState := (initializeGame wLayout5 1 wStream0 3 false).getD wEmptyState

/-- Five-cell board with one mine at `(0,0)`, immortal mode. -/
def wBoard5i : GameState := (initializeGame wLayout5 1 wStream0 3 true).getD wEmptyState

/-- Ten cells in a row. -/
def wLayout10 : List Key :=
  [(0, 0), (1, 0), (2, 0), (3, 0), (4, 0), (5, 0), (6, 0), (7, 0), (8, 0), (9, 0)]

/-- A draw stream picking indices 0, 5, 10, ... -/
def wStream5 : Nat → Nat := fun i => 5 * i

/-- Ten-cell board with two mines, at `(0,0)` and `(5,0)`, normal mode. -/
def wBoard10 : GameState := (initializeGame wLayout10 2 wStream5 5 false).getD wEmptyState

/-! ### C5: invalid reveal and flag commands are silent no-ops -/

/-- C5.  For every session state: a reveal (`addToRevealQueue`) or flag
(`toggleFlag`) command on a nonexistent or already-revealed coordinate, a
reveal command on a flagged cell, and any reveal or flag command while the
status is terminal, all return the state entirely unchanged; the functions are
total, so no error is raised. -/
theorem claim_C5_invalid_commands_noop (s : GameState) (k : Key) :
    (s.cells k = none → addToRevealQueue s k = s ∧ toggleFlag s k = s) ∧
    (∀ c : CellState, s.cells k = some c → c.isRevealed = true →
      addToRevealQueue s k = s ∧ toggleFlag s k = s) ∧
    (∀ c : CellState, s.cells k = some c → c.isFlagged = true →
      addToRevealQueue s k = s) ∧
    (s.gameStatus ≠ GameStatus.playing →
      addToRevealQueue s k = s ∧ toggleFlag s k = s) := by
  refine ⟨fun h => ⟨addToRevealQueue_missing s k h, toggleFlag_missing s k h⟩,
    fun c hc hr => ⟨addToRevealQueue_skip s k c hc (Or.inl hr), toggleFlag_revealed s k c hc hr⟩,
    fun c hc hf => addToRevealQueue_skip s k c hc (Or.inr (Or.inl hf)),
    fun hst => ⟨addToRevealQueue_terminal s k hst, toggleFlag_terminal s k hst⟩⟩

/-- Witness for C5 at a concrete board and a coordinate outside the layout. -/
theorem claim_C5_witness :
    wBoard2.cells (5, 5) = none ∧
    addToRevealQueue wBoard2 (5, 5) = wBoard2 ∧ toggleFlag wBoard2 (5, 5) = wBoard2 := by
  have h : wBoard2.cells (5, 5) = none := by decide
  exact ⟨h, ((claim_C5_invalid_commands_noop wBoard2 (5, 5)).1 h).1,
    ((claim_C5_invalid_commands_noop wBoard2 (5, 5)).1 h).2⟩

/-! ### C2: popping a mine in normal mode -/

/-- C2.  When `processRevealQueue` pops a coordinate holding an unrevealed,
unflagged mine while the session is playing in normal mode, the result has
status `lost`, every mine cell is revealed, the queue is empty and
`isRevealing` is false; afterwards no reveal or flag command changes the cell
map (or the status or queue) again. -/
theorem claim_C2_mine_pop_loses (s : GameState) (k : Key) (q : List Key) (c : CellState)
    (hq : s.revealQueue = k :: q) (hst : s.gameStatus = GameStatus.playing)
    (him : s.immortalMode = false) (hc : s.cells k = some c)
    (hm : c.isMine = true) (hr : c.isRevealed = false) (hf : c.isFlagged = false) :
    (processRevealQueue s).gameStatus = GameStatus.lost ∧
    (∀ x d, (processRevealQueue s).cells x = some d → d.isMine = true →
      d.isRevealed = true) ∧
    (processRevealQueue s).revealQueue = [] ∧
    (processRevealQueue s).isRevealing = false ∧
    (∀ cmds : List Cmd, (run (processRevealQueue s) cmds).cells = (processRevealQueue s).cells) := by
  have hps : processRevealQueue s =
      { s with cells := revealAllMines s.cells, gameStatus := GameStatus.lost,
               revealQueue := [], isRevealing := false } := by
    unfold processRevealQueue
    rw [hq]
    dsimp only
    rw [hc]
    dsimp only
    rw [if_neg (by simp [hst, hr, hf])]
    rw [if_pos hm]
    rw [if_neg (by simp [him])]
  refine ⟨by rw [hps], ?_, by rw [hps], by rw [hps], ?_⟩
  · intro x d hx hdm
    rw [hps] at hx
    simp only [revealAllMines] at hx
    cases hcx : s.cells x with
    | none => rw [hcx] at hx; cases hx
    | some c0 =>
        rw [hcx] at hx
        simp only [Option.some.injEq] at hx
        by_cases hm0 : c0.isMine = true
        · rw [if_pos hm0] at hx; rw [← hx]
        · rw [if_neg hm0] at hx; rw [← hx] at hdm; exact absurd hdm hm0
  · intro cmds
    have := run_terminal_frozen cmds (processRevealQueue s)
      (by rw [hps]; simp) (by rw [hps])
    exact this.1

/-- Witness for C2: five-cell board, one mine at `(0,0)`, which is enqueued and
then popped. -/
theorem claim_C2_witness :
    ((addToRevealQueue wBoard5 (0, 0)).revealQueue = [(0, 0)] ∧
      (addToRevealQueue wBoard5 (0, 0)).gameStatus = GameStatus.playing) ∧
    (processRevealQueue (addToRevealQueue wBoard5 (0, 0))).gameStatus = GameStatus.lost ∧
    (∀ x d, (processRevealQueue (addToRevealQueue wBoard5 (0, 0))).cells x = some d →
      d.isMine = true → d.isRevealed = true) ∧
    (processRevealQueue (addToRevealQueue wBoard5 (0, 0))).revealQueue = [] ∧
    (processRevealQueue (addToRevealQueue wBoard5 (0, 0))).isRevealing = false ∧
    (∀ cmds : List Cmd,
      (run (processRevealQueue (addToRevealQueue wBoard5 (0, 0))) cmds).cells =
        (processRevealQueue (addToRevealQueue wBoard5 (0, 0))).cells) := by
  refine ⟨⟨by decide, by decide⟩, ?_⟩
  have h := claim_C2_mine_pop_loses (addToRevealQueue wBoard5 (0, 0)) (0, 0) []
    ⟨true, false, false, 0, false⟩ (by decide) (by decide) (by decide) (by decide)
    (by decide) (by decide) (by decide)
  exact ⟨h.1, h.2.1, h.2.2.1, h.2.2.2.1, h.2.2.2.2⟩

/-! ### Generator lemmas (C6, C9) -/

theorem placeMinesLoop_some_length (pillars : List Key) (stream : Nat → Nat)
    (maxMines : Nat) :
    ∀ (fuel i : Nat) (mines r : List Key), mines.length ≤ maxMines →
      placeMinesLoop pillars stream maxMines fuel i mines = some r →
      r.length = maxMines := by
  intro fuel
  induction fuel with
  | zero =>
      intro i mines r hle h
      unfold placeMinesLoop at h
      by_cases hge : mines.length ≥ maxMines
      · rw [if_pos hge] at h
        cases h
        exact le_antisymm hle hge
      · rw [if_neg hge] at h
        cases h
  | succ f ih =>
      intro i mines r hle h
      unfold placeMinesLoop at h
      by_cases hge : mines.length ≥ maxMines
      · rw [if_pos hge] at h
        cases h
        exact le_antisymm hle hge
      · rw [if_neg hge] at h
        refine ih (i + 1) _ r ?_ h
        have hlt : mines.length < maxMines := lt_of_not_ge hge
        dsimp only at *
        split
        · split
          · exact hle
          · simpa using hlt
        · exact hle

theorem placeMinesLoop_some_subset (pillars : List Key) (stream : Nat → Nat)
    (maxMines : Nat) (hmax : 0 < maxMines → 0 < pillars.length) :
    ∀ (fuel i : Nat) (mines r : List Key), (∀ x ∈ mines, x ∈ pillars) →
      placeMinesLoop pillars stream maxMines fuel i mines = some r →
      ∀ x ∈ r, x ∈ pillars := by
  intro fuel
  induction fuel with
  | zero =>
      intro i mines r hsub h
      unfold placeMinesLoop at h
      by_cases hge : mines.length ≥ maxMines
      · rw [if_pos hge] at h; cases h; exact hsub
      · rw [if_neg hge] at h; cases h
  | succ f ih =>
      intro i mines r hsub h
      unfold placeMinesLoop at h
      by_cases hge : mines.length ≥ maxMines
      · rw [if_pos hge] at h; cases h; exact hsub
      · rw [if_neg hge] at h
        have hpos : 0 < pillars.length :=
          hmax (Nat.pos_of_ne_zero (by
            intro h0
            exact hge (h0 ▸ Nat.zero_le _)))
        have hcand : pillars.getD (stream i % pillars.length) ((0 : Int), (0 : Int)) ∈ pillars := by
          have hidx : stream i % pillars.length < pillars.length := Nat.mod_lt _ hpos
          rw [List.getD_eq_getElem _ _ hidx]
          exact List.getElem_mem hidx
        refine ih (i + 1) _ r ?_ h
        dsimp only
        split
        · split
          · exact hsub
          · intro x hx
            rcases List.mem_cons.mp hx with hx | hx
            · exact hx ▸ hcand
            · exact hsub x hx
        · exact hsub

theorem placeMinesLoop_some_nodup (pillars : List Key) (stream : Nat → Nat)
    (maxMines : Nat) :
    ∀ (fuel i : Nat) (mines r : List Key), mines.Nodup →
      placeMinesLoop pillars stream maxMines fuel i mines = some r →
      r.Nodup := by
  intro fuel
  induction fuel with
  | zero =>
      intro i mines r hnd h
      unfold placeMinesLoop at h
      by_cases hge : mines.length ≥ maxMines
      · rw [if_pos hge] at h; cases h; exact hnd
      · rw [if_neg hge] at h; cases h
  | succ f ih =>
      intro i mines r hnd h
      unfold placeMinesLoop at h
      by_cases hge : mines.length ≥ maxMines
      · rw [if_pos hge] at h; cases h; exact hnd
      · rw [if_neg hge] at h
        refine ih (i + 1) _ r ?_ h
        dsimp only
        split
        · split
          · exact hnd
          · exact List.Nodup.cons (by assumption) hnd
        · exact hnd

/-- Convergent runs of the generator return exactly
`min target (layoutSize / 5)` mines, all of them distinct layout cells. -/
theorem generateSolvablePuzzle_some_props (pillars : List Key) (target : Nat)
    (stream : Nat → Nat) (fuel : Nat) (mines : List Key) (actual : Nat)
    (h : generateSolvablePuzzle pillars target stream fuel = some (mines, actual)) :
    actual = mines.length ∧ mines.length = min target (pillars.length / 5) ∧
      (∀ x ∈ mines, x ∈ pillars) ∧ mines.Nodup := by
  unfold generateSolvablePuzzle at h
  dsimp only at h
  cases hp : placeMinesLoop pillars stream (min target (pillars.length / 5)) fuel 0 [] with
  | none => rw [hp] at h; cases h
  | some m =>
      rw [hp] at h
      simp only [Option.map_some', Option.some.injEq, Prod.mk.injEq] at h
      obtain ⟨hm, ha⟩ := h
      subst hm
      have hmax : 0 < min target (pillars.length / 5) → 0 < pillars.length := by
        intro hpos
        have h5 : 0 < pillars.length / 5 := lt_of_lt_of_le hpos (min_le_right _ _)
        exact lt_of_lt_of_le h5 (Nat.div_le_self _ _)
      refine ⟨ha.symm, ?_, ?_, ?_⟩
      · exact placeMinesLoop_some_length pillars stream _ fuel 0 [] m
          (Nat.zero_le _) hp
      · exact placeMinesLoop_some_subset pillars stream _ hmax fuel 0 [] m
          (by intro x hx; cases hx) hp
      · exact placeMinesLoop_some_nodup pillars stream _ fuel 0 [] m List.nodup_nil hp

/-! ### C6: mine count bound -/

/-- C6.  Whenever the generator returns, the actual mine count is at most
`floor(layoutSize * 0.20)` (equal to `layoutSize / 5` in integers, see the
header note on floating point) and at most the requested count. -/
theorem claim_C6_mine_count_bound (pillars : List Key) (target : Nat)
    (stream : Nat → Nat) (fuel : Nat) (mines : List Key) (actual : Nat)
    (h : generateSolvablePuzzle pillars target stream fuel = some (mines, actual)) :
    actual ≤ pillars.length / 5 ∧ actual ≤ target := by
  obtain ⟨h1, h2, -, -⟩ := generateSolvablePuzzle_some_props pillars target stream fuel
    mines actual h
  rw [h1, h2]
  exact ⟨min_le_right _ _, min_le_left _ _⟩

/-- Witness for C6 on the concrete ten-cell board. -/
theorem claim_C6_witness :
    generateSolvablePuzzle wLayout10 2 wStream5 5 = some ([(5, 0), (0, 0)], 2) ∧
    2 ≤ wLayout10.length / 5 ∧ 2 ≤ 2 := by
  have h : generateSolvablePuzzle wLayout10 2 wStream5 5 = some ([(5, 0), (0, 0)], 2) := by
    decide
  exact ⟨h, (claim_C6_mine_count_bound wLayout10 2 wStream5 5 _ 2 h).1,
    (claim_C6_mine_count_bound wLayout10 2 wStream5 5 _ 2 h).2⟩

/-! ### C9: termination of mine placement -/

/-- Divergence of the placement loop on a concrete input: on the ten-cell
board with two requested mines, a draw stream that always picks index 0 keeps
re-adding the already-placed first cell, so the source while loop never exits
(the model returns no result for every fuel bound). -/
def generatorDivergesOnConstStream : Prop :=
  ∀ fuel : Nat, generateSolvablePuzzle wLayout10 2 wStream0 fuel = none

theorem placeMinesLoop_const0_stuck :
    ∀ fuel i : Nat,
      placeMinesLoop wLayout10 wStream0 2 fuel i [((0 : Int), (0 : Int))] = none := by
  intro fuel
  induction fuel with
  | zero => intro i; rfl
  | succ f ih =>
      intro i
      have hstep : placeMinesLoop wLayout10 wStream0 2 (f + 1) i [((0 : Int), (0 : Int))] =
          placeMinesLoop wLayout10 wStream0 2 f (i + 1) [((0 : Int), (0 : Int))] := rfl
      rw [hstep]
      exact ih (i + 1)

/-- Counterexample to C9 as stated: a non-empty layout and a draw stream on
which `generateSolvablePuzzle` never terminates (and in particular never
reaches the fallback placement, which sits after an unconditional return). -/
theorem claim_C9_counterexample : generatorDivergesOnConstStream := by
  intro fuel
  cases fuel with
  | zero => rfl
  | succ f =>
      show Option.map (fun m : List Key => (m, m.length))
        (placeMinesLoop wLayout10 wStream0 2 (f + 1) 0 []) = none
      have hstep : placeMinesLoop wLayout10 wStream0 2 (f + 1) 0 [] =
          placeMinesLoop wLayout10 wStream0 2 f 1 [((0 : Int), (0 : Int))] := rfl
      rw [hstep, placeMinesLoop_const0_stuck f 1]
      rfl

/-- C9 (amended).  The placement loop does not terminate on every stream
(`claim_C9_counterexample`), and non-convergence diverges rather than falling
back, because every iteration of the attempt loop ends in an unconditional
return (`store.ts` line 59) leaving the lines 62-71 fallback unreachable.
What does hold: whenever the placement loop converges, `generateSolvablePuzzle`
terminates with exactly `min(requestedMineCount, floor(layoutSize * 0.20))`
mines. -/
theorem claim_C9_amended_convergent_count (pillars : List Key) (target : Nat)
    (stream : Nat → Nat) (fuel : Nat) (mines : List Key) (actual : Nat)
    (h : generateSolvablePuzzle pillars target stream fuel = some (mines, actual)) :
    actual = min target (pillars.length / 5) := by
  obtain ⟨h1, h2, -, -⟩ := generateSolvablePuzzle_some_props pillars target stream fuel
    mines actual h
  rw [h1, h2]

/-- Witness for the amended C9 on the concrete ten-cell board. -/
theorem claim_C9_amended_witness :
    generateSolvablePuzzle wLayout10 2 wStream5 5 = some ([(5, 0), (0, 0)], 2) ∧
    (2 : Nat) = min 2 (wLayout10.length / 5) := by
  have h : generateSolvablePuzzle wLayout10 2 wStream5 5 = some ([(5, 0), (0, 0)], 2) := by
    decide
  exact ⟨h, claim_C9_amended_convergent_count wLayout10 2 wStream5 5 _ 2 h⟩

/-! ### Counting infrastructure -/

theorem countP_congr_on (l : List Key) (p q : Key → Bool) (h : ∀ x ∈ l, p x = q x) :
    l.countP p = l.countP q := by
  induction l with
  | nil => rfl
  | cons a t ih =>
      rw [List.countP_cons, List.countP_cons, h a (List.mem_cons_self a t),
        ih (fun x hx => h x (List.mem_cons_of_mem a hx))]

theorem countP_update (l : List Key) (hnd : l.Nodup) (k : Key) (hk : k ∈ l)
    (p q : Key → Bool) (h : ∀ x ∈ l, x ≠ k → q x = p x) :
    l.countP q + (if p k then 1 else 0) = l.countP p + (if q k then 1 else 0) := by
  induction l with
  | nil => cases hk
  | cons a t ih =>
      rw [List.nodup_cons] at hnd
      rcases List.mem_cons.mp hk with rfl | hkt
      · have ht : t.countP q = t.countP p :=
          countP_congr_on t q p (fun x hx =>
            h x (List.mem_cons_of_mem k hx) (fun hxa => hnd.1 (hxa ▸ hx)))
        rw [List.countP_cons, List.countP_cons, ht]
        omega
      · have ha : q a = p a :=
          h a (List.mem_cons_self a t) (fun hak => hnd.1 (hak ▸ hkt))
        rw [List.countP_cons, List.countP_cons, ha]
        have := ih hnd.2 hkt (fun x hx hxk => h x (List.mem_cons_of_mem a hx) hxk)
        omega

theorem countP_mem_nodup (l m : List Key) (hl : l.Nodup) (hm : m.Nodup)
    (hsub : ∀ x ∈ m, x ∈ l) : l.countP (fun x => decide (x ∈ m)) = m.length := by
  rw [List.countP_eq_length_filter]
  have hperm : (l.filter (fun x => decide (x ∈ m))).Perm m := by
    refine (List.perm_ext_iff_of_nodup (hl.filter _) hm).mpr ?_
    intro x
    rw [List.mem_filter]
    simp only [decide_eq_true_eq]
    exact ⟨fun hx => hx.2, fun hx => ⟨hsub x hx, hx⟩⟩
  exact hperm.length_eq

theorem cellProp_setCell_self (s : GameState) (k : Key) (c2 : CellState)
    (p : CellState → Bool) :
    cellProp { s with cells := setCell s.cells k c2 } p k = p c2 := by
  simp [cellProp, setCell]

theorem cellProp_setCell_other (s : GameState) (k x : Key) (c2 : CellState)
    (p : CellState → Bool) (hx : x ≠ k) :
    cellProp { s with cells := setCell s.cells k c2 } p x = cellProp s p x := by
  simp [cellProp, setCell, hx]

theorem countCells_setCell (s : GameState) (k : Key) (c c2 : CellState)
    (hnd : s.pillars.Nodup) (hk : k ∈ s.pillars) (hc : s.cells k = some c)
    (p : CellState → Bool) :
    countCells { s with cells := setCell s.cells k c2 } p + (if p c then 1 else 0)
      = countCells s p + (if p c2 then 1 else 0) := by
  have hbase : cellProp s p k = p c := by simp [cellProp, hc]
  have h := countP_update s.pillars hnd k hk (cellProp s p)
    (cellProp { s with cells := setCell s.cells k c2 } p)
    (fun x _ hxk => cellProp_setCell_other s k x c2 p hxk)
  rw [hbase, cellProp_setCell_self] at h
  exact h

theorem countCells_congr (s s2 : GameState) (hp : s2.pillars = s.pillars)
    (p q : CellState → Bool)
    (h : ∀ x ∈ s.pillars, cellProp s2 p x = cellProp s q x) :
    countCells s2 p = countCells s q := by
  unfold countCells
  rw [hp]
  exact countP_congr_on s.pillars _ _ h

theorem countCells_congr2 (s s2 : GameState) (p q : CellState → Bool)
    (h : ∀ x ∈ s.pillars, cellProp s2 p x = cellProp s q x)
    (hp : s2.pillars = s.pillars) :
    countCells s2 p = countCells s q :=
  countCells_congr s s2 hp p q h

/-! ### Branch lemmas for `processRevealQueue` -/

theorem prq_empty (s : GameState) (hq : s.revealQueue = []) :
    processRevealQueue s = { s with isRevealing := false } := by
  unfold processRevealQueue
  rw [hq]

theorem prq_missing (s : GameState) (k : Key) (q : List Key)
    (hq : s.revealQueue = k :: q) (hc : s.cells k = none) :
    processRevealQueue s = { s with revealQueue := q } := by
  unfold processRevealQueue
  rw [hq]
  dsimp only
  rw [hc]

theorem prq_stale (s : GameState) (k : Key) (q : List Key) (c : CellState)
    (hq : s.revealQueue = k :: q) (hc : s.cells k = some c)
    (hskip : s.gameStatus ≠ GameStatus.playing ∨ c.isRevealed = true ∨ c.isFlagged = true) :
    processRevealQueue s = { s with revealQueue := q } := by
  unfold processRevealQueue
  rw [hq]
  dsimp only
  rw [hc]
  dsimp only
  rw [if_pos hskip]

theorem prq_mine_immortal (s : GameState) (k : Key) (q : List Key) (c : CellState)
    (hq : s.revealQueue = k :: q) (hc : s.cells k = some c)
    (hst : s.gameStatus = GameStatus.playing) (hr : c.isRevealed = false)
    (hf : c.isFlagged = false) (hm : c.isMine = true) (him : s.immortalMode = true) :
    processRevealQueue s =
      { s with
        cells := setCell s.cells k
          { c with isRevealed := true, isFlagged := true, isImmortalMine := true }
        revealQueue := q } := by
  unfold processRevealQueue
  rw [hq]
  dsimp only
  rw [hc]
  dsimp only
  rw [if_neg (by simp [hst, hr, hf]), if_pos hm, if_pos him]

theorem prq_mine_normal (s : GameState) (k : Key) (q : List Key) (c : CellState)
    (hq : s.revealQueue = k :: q) (hc : s.cells k = some c)
    (hst : s.gameStatus = GameStatus.playing) (hr : c.isRevealed = false)
    (hf : c.isFlagged = false) (hm : c.isMine = true) (him : s.immortalMode = false) :
    processRevealQueue s =
      { s with cells := revealAllMines s.cells, gameStatus := GameStatus.lost,
               revealQueue := [], isRevealing := false } := by
  unfold processRevealQueue
  rw [hq]
  dsimp only
  rw [hc]
  dsimp only
  rw [if_neg (by simp [hst, hr, hf]), if_pos hm, if_neg (by simp [him])]

theorem prq_safe (s : GameState) (k : Key) (q : List Key) (c : CellState)
    (hq : s.revealQueue = k :: q) (hc : s.cells k = some c)
    (hst : s.gameStatus = GameStatus.playing) (hr : c.isRevealed = false)
    (hf : c.isFlagged = false) (hm : c.isMine = false) :
    processRevealQueue s =
      (if countSafeUnrevealed
            { s with cells := setCell s.cells k { c with isRevealed := true, isFlagged := false } } = 0
       then
        { s with
          cells := setCell s.cells k { c with isRevealed := true, isFlagged := false }
          gameStatus := GameStatus.won
          revealQueue := []
          isRevealing := false }
       else
        { s with
          cells := setCell s.cells k { c with isRevealed := true, isFlagged := false }
          revealQueue :=
            if c.neighborMineCount = 0 then
              cascadeNeighbors s.pillars
                (setCell s.cells k { c with isRevealed := true, isFlagged := false }) k q ++ q
            else q }) := by
  unfold processRevealQueue
  rw [hq]
  dsimp only
  rw [hc]
  dsimp only
  rw [if_neg (by simp [hst, hr, hf]), if_neg (by simp [hm])]
  have hcond : (c.neighborMineCount = 0 ∧ ¬c.isMine = true) ↔ (c.neighborMineCount = 0) := by
    simp [hm]
  by_cases h0 : c.neighborMineCount = 0
  · rw [if_pos (hcond.mpr h0), if_pos h0]
  · rw [if_neg (fun hh => h0 (hcond.mp hh)), if_neg h0]

/-! ### The reachable-state invariant -/

/-- Invariant tying every reachable state `s` to its freshly initialized
session `s0`: the layout, mine count and mode are constant, the cell map keeps
its domain and its per-cell mine bit and neighbor count, `flagCount` counts the
flagged non-immortal cells, immortal marks only appear on revealed flagged
cells (and never in normal mode), the status is `won` exactly when no safe
cell is unrevealed, `lost` states keep an unrevealed safe cell, and terminal
states have an empty queue with `isRevealing` off. -/
structure EngineInv (s0 s : GameState) : Prop where
  pillars_eq : s.pillars = s0.pillars
  nodup : s0.pillars.Nodup
  mineCount_eq : s.mineCount = s0.mineCount
  immortal_eq : s.immortalMode = s0.immortalMode
  dom_iff : ∀ k : Key, (s.cells k).isSome = true ↔ k ∈ s0.pillars
  static_eq : ∀ k c, s.cells k = some c → ∃ c0, s0.cells k = some c0 ∧
      c.isMine = c0.isMine ∧ c.neighborMineCount = c0.neighborMineCount
  flag_acct : s.flagCount = (countFlaggedProper s : Int)
  imm_mark : ∀ k c, s.cells k = some c → c.isImmortalMine = true →
      c.isFlagged = true ∧ c.isRevealed = true
  imm_off : s.immortalMode = false → ∀ k c, s.cells k = some c → c.isImmortalMine = false
  won_iff : s.gameStatus = GameStatus.won ↔ countSafeUnrevealed s = 0
  lost_unsafe : s.gameStatus = GameStatus.lost → countSafeUnrevealed s ≠ 0
  idle_done : s.gameStatus ≠ GameStatus.playing → s.revealQueue = [] ∧ s.isRevealing = false

theorem countCells_setCell_of_eq (s s2 : GameState) (k : Key) (c c2 : CellState)
    (hp : s2.pillars = s.pillars) (hcells : s2.cells = setCell s.cells k c2)
    (hnd : s.pillars.Nodup) (hk : k ∈ s.pillars) (hc : s.cells k = some c)
    (p : CellState → Bool) :
    countCells s2 p + (if p c then 1 else 0) = countCells s p + (if p c2 then 1 else 0) := by
  have hagree : ∀ x ∈ s.pillars, x ≠ k → cellProp s2 p x = cellProp s p x := by
    intro x _ hxk
    simp [cellProp, hcells, setCell, hxk]
  have hself : cellProp s2 p k = p c2 := by simp [cellProp, hcells, setCell]
  have hbase : cellProp s p k = p c := by simp [cellProp, hc]
  have h := countP_update s.pillars hnd k hk (cellProp s p) (cellProp s2 p)
    (fun x hx hxk => hagree x hx hxk)
  rw [hbase, hself] at h
  unfold countCells
  rw [hp]
  exact h

theorem EngineInv.countMines_pres (s0 s : GameState) (hinv : EngineInv s0 s) :
    countMines s = countMines s0 := by
  refine countCells_congr s0 s hinv.pillars_eq _ _ ?_
  intro x hx
  have hdom : (s.cells x).isSome = true := (hinv.dom_iff x).mpr hx
  cases hcx : s.cells x with
  | none => rw [hcx] at hdom; cases hdom
  | some c =>
      obtain ⟨c0, hc0, hm, -⟩ := hinv.static_eq x c hcx
      simp [cellProp, hcx, hc0, hm]

theorem EngineInv.toggleFlag_pres (s0 s : GameState) (k : Key) (hinv : EngineInv s0 s) :
    EngineInv s0 (toggleFlag s k) := by
  by_cases hst : s.gameStatus ≠ GameStatus.playing
  · rw [toggleFlag_terminal s k hst]; exact hinv
  · cases hc : s.cells k with
    | none => rw [toggleFlag_missing s k hc]; exact hinv
    | some c =>
        by_cases hr : c.isRevealed = true
        · rw [toggleFlag_revealed s k c hc hr]; exact hinv
        · have hst' : s.gameStatus = GameStatus.playing := not_not.mp hst
          have himm : c.isImmortalMine = false := by
            cases himc : c.isImmortalMine with
            | false => rfl
            | true => exact absurd (hinv.imm_mark k c hc himc).2 hr
          set c2 : CellState := { c with isFlagged := !c.isFlagged } with hc2
          set s2 : GameState :=
            { s with
              cells := setCell s.cells k c2
              flagCount := s.flagCount + (if !c.isFlagged then 1 else -1) } with hs2
          have hteq : toggleFlag s k = s2 := by
            unfold toggleFlag
            rw [if_neg hst, hc]
            dsimp only
            rw [if_neg hr]
          have hk : k ∈ s0.pillars := (hinv.dom_iff k).mp (by rw [hc]; rfl)
          have hks : k ∈ s.pillars := by rw [hinv.pillars_eq]; exact hk
          have hnds : s.pillars.Nodup := by rw [hinv.pillars_eq]; exact hinv.nodup
          have hcount := fun p => countCells_setCell_of_eq s s2 k c c2 rfl rfl hnds hks hc p
          have hcellsk : s2.cells k = some c2 := by
            show setCell s.cells k c2 k = some c2
            simp [setCell]
          have hcellso : ∀ x, x ≠ k → s2.cells x = s.cells x := by
            intro x hxk
            show setCell s.cells k c2 x = s.cells x
            simp [setCell, hxk]
          rw [hteq]
          refine ⟨hinv.pillars_eq, hinv.nodup, hinv.mineCount_eq, hinv.immortal_eq,
            ?_, ?_, ?_, ?_, ?_, ?_, ?_, ?_⟩
          · intro x
            by_cases hxk : x = k
            · rw [hxk, hcellsk]
              simp [hk]
            · rw [hcellso x hxk]
              exact hinv.dom_iff x
          · intro x d hd
            by_cases hxk : x = k
            · rw [hxk] at hd ⊢
              rw [hcellsk] at hd
              have hd2 : c2 = d := by injection hd
              obtain ⟨c0, hc0, hm0, hn0⟩ := hinv.static_eq k c hc
              refine ⟨c0, hc0, ?_, ?_⟩
              · rw [← hd2]; exact hm0
              · rw [← hd2]; exact hn0
            · rw [hcellso x hxk] at hd
              exact hinv.static_eq x d hd
          · have hcnt := hcount (fun d => d.isFlagged && !d.isImmortalMine)
            have hflag2 : (c2.isFlagged && !c2.isImmortalMine) = !c.isFlagged := by
              show ((!c.isFlagged) && !c.isImmortalMine) = !c.isFlagged
              rw [himm]
              simp
            have hflag1 : (c.isFlagged && !c.isImmortalMine) = c.isFlagged := by
              rw [himm]
              simp
            rw [hflag1, hflag2] at hcnt
            have hfc : s2.flagCount = s.flagCount + (if !c.isFlagged then 1 else -1) := rfl
            have hold := hinv.flag_acct
            unfold countFlaggedProper at hold ⊢
            rw [hfc, hold]
            cases hcf : c.isFlagged
            · simp only [hcf, Bool.not_false] at hcnt ⊢
              rw [if_neg (by decide : ¬(false = true)), if_pos trivial] at hcnt
              rw [if_pos trivial]
              omega
            · simp only [hcf, Bool.not_true] at hcnt ⊢
              rw [if_pos trivial, if_neg (by decide : ¬(false = true))] at hcnt
              rw [if_neg (by decide : ¬(false = true))]
              omega
          · intro x d hd himd
            by_cases hxk : x = k
            · rw [hxk] at hd
              rw [hcellsk] at hd
              have hd2 : c2 = d := by injection hd
              rw [← hd2] at himd
              rw [show c2.isImmortalMine = c.isImmortalMine from rfl, himm] at himd
              cases himd
            · rw [hcellso x hxk] at hd
              exact hinv.imm_mark x d hd himd
          · intro hoff x d hd
            by_cases hxk : x = k
            · rw [hxk] at hd
              rw [hcellsk] at hd
              have hd2 : c2 = d := by injection hd
              rw [← hd2]
              show c.isImmortalMine = false
              exact himm
            · rw [hcellso x hxk] at hd
              exact hinv.imm_off hoff x d hd
          · have hcnt := hcount (fun d => !d.isMine && !d.isRevealed)
            have hsafe2 : (!c2.isMine && !c2.isRevealed) = (!c.isMine && !c.isRevealed) := rfl
            rw [hsafe2] at hcnt
            have hsc : countSafeUnrevealed s2 = countSafeUnrevealed s := by
              unfold countSafeUnrevealed
              split_ifs at hcnt <;> omega
            have hgs : s2.gameStatus = s.gameStatus := rfl
            rw [hgs, hsc]
            exact hinv.won_iff
          · have hcnt := hcount (fun d => !d.isMine && !d.isRevealed)
            have hsafe2 : (!c2.isMine && !c2.isRevealed) = (!c.isMine && !c.isRevealed) := rfl
            rw [hsafe2] at hcnt
            have hsc : countSafeUnrevealed s2 = countSafeUnrevealed s := by
              unfold countSafeUnrevealed
              split_ifs at hcnt <;> omega
            have hgs : s2.gameStatus = s.gameStatus := rfl
            rw [hgs, hsc]
            exact hinv.lost_unsafe
          · intro hterm
            exact absurd hst' hterm

theorem dom_iff_setCell (s0 s s2 : GameState) (k : Key) (c c2 : CellState)
    (hd : ∀ x : Key, (s.cells x).isSome = true ↔ x ∈ s0.pillars) (hc : s.cells k = some c)
    (hcells : s2.cells = setCell s.cells k c2) :
    ∀ x : Key, (s2.cells x).isSome = true ↔ x ∈ s0.pillars := by
  intro x
  by_cases hxk : x = k
  · have h2 : s2.cells x = some c2 := by rw [hcells, hxk]; simp [setCell]
    rw [h2]
    have := (hd k).mp (by rw [hc]; rfl)
    simp [hxk, this]
  · have h2 : s2.cells x = s.cells x := by rw [hcells]; simp [setCell, hxk]
    rw [h2]
    exact hd x

theorem static_eq_setCell (s0 s s2 : GameState) (k : Key) (c c2 : CellState)
    (hs : ∀ x d, s.cells x = some d → ∃ c0, s0.cells x = some c0 ∧
      d.isMine = c0.isMine ∧ d.neighborMineCount = c0.neighborMineCount)
    (hc : s.cells k = some c) (hcells : s2.cells = setCell s.cells k c2)
    (hmine : c2.isMine = c.isMine) (hncnt : c2.neighborMineCount = c.neighborMineCount) :
    ∀ x d, s2.cells x = some d → ∃ c0, s0.cells x = some c0 ∧
      d.isMine = c0.isMine ∧ d.neighborMineCount = c0.neighborMineCount := by
  intro x d hd
  by_cases hxk : x = k
  · have h2 : s2.cells x = some c2 := by rw [hcells, hxk]; simp [setCell]
    rw [h2] at hd
    have hd2 : c2 = d := by injection hd
    obtain ⟨c0, hc0, hm0, hn0⟩ := hs k c hc
    rw [hxk]
    exact ⟨c0, hc0, by rw [← hd2, hmine]; exact hm0, by rw [← hd2, hncnt]; exact hn0⟩
  · have h2 : s2.cells x = s.cells x := by rw [hcells]; simp [setCell, hxk]
    rw [h2] at hd
    exact hs x d hd

theorem EngineInv.requeue (s0 s : GameState) (hinv : EngineInv s0 s)
    (hst : s.gameStatus = GameStatus.playing) (q2 : List Key) (b : Bool) :
    EngineInv s0 { s with revealQueue := q2, isRevealing := b } :=
  ⟨hinv.pillars_eq, hinv.nodup, hinv.mineCount_eq, hinv.immortal_eq, hinv.dom_iff,
   hinv.static_eq, hinv.flag_acct, hinv.imm_mark, hinv.imm_off, hinv.won_iff,
   hinv.lost_unsafe, fun hterm => absurd hst hterm⟩

theorem EngineInv.addToRevealQueue_pres (s0 s : GameState) (k : Key)
    (hinv : EngineInv s0 s) : EngineInv s0 (addToRevealQueue s k) := by
  cases hc : s.cells k with
  | none => rw [addToRevealQueue_missing s k hc]; exact hinv
  | some c =>
      by_cases hcond : c.isRevealed = true ∨ c.isFlagged = true ∨
          s.gameStatus ≠ GameStatus.playing
      · rw [addToRevealQueue_skip s k c hc hcond]; exact hinv
      · have hst : s.gameStatus = GameStatus.playing := by
          by_contra hne
          exact hcond (Or.inr (Or.inr hne))
        have heq : addToRevealQueue s k =
            { s with revealQueue := s.revealQueue ++ [k], isRevealing := true } := by
          unfold addToRevealQueue
          rw [hc]
          dsimp only
          rw [if_neg hcond]
        rw [heq]
        exact EngineInv.requeue s0 s hinv hst _ _

theorem setCell_self (cells : Key → Option CellState) (k : Key) (c2 : CellState) :
    setCell cells k c2 k = some c2 := by simp [setCell]

theorem setCell_other (cells : Key → Option CellState) (k x : Key) (c2 : CellState)
    (hx : x ≠ k) : setCell cells k c2 x = cells x := by simp [setCell, hx]

theorem imm_mark_setCell (s0 s s2 : GameState) (k : Key) (c c2 : CellState)
    (him : ∀ x d, s.cells x = some d → d.isImmortalMine = true →
      d.isFlagged = true ∧ d.isRevealed = true)
    (hcells : s2.cells = setCell s.cells k c2)
    (hc2 : c2.isImmortalMine = true → c2.isFlagged = true ∧ c2.isRevealed = true) :
    ∀ x d, s2.cells x = some d → d.isImmortalMine = true →
      d.isFlagged = true ∧ d.isRevealed = true := by
  intro x d hd himd
  rw [hcells] at hd
  by_cases hxk : x = k
  · rw [hxk, setCell_self] at hd
    have hd2 : c2 = d := by injection hd
    rw [← hd2] at himd ⊢
    exact hc2 himd
  · rw [setCell_other s.cells k x c2 hxk] at hd
    exact him x d hd himd

theorem imm_off_setCell (s0 s s2 : GameState) (k : Key) (c c2 : CellState)
    (him : ∀ x d, s.cells x = some d → d.isImmortalMine = false)
    (hcells : s2.cells = setCell s.cells k c2)
    (hc2 : c2.isImmortalMine = false) :
    ∀ x d, s2.cells x = some d → d.isImmortalMine = false := by
  intro x d hd
  rw [hcells] at hd
  by_cases hxk : x = k
  · rw [hxk, setCell_self] at hd
    have hd2 : c2 = d := by injection hd
    rw [← hd2]
    exact hc2
  · rw [setCell_other s.cells k x c2 hxk] at hd
    exact him x d hd

theorem cellProp_revealAllMines (s s2 : GameState) (hcells : s2.cells = revealAllMines s.cells)
    (p : CellState → Bool)
    (hp : ∀ e : CellState, e.isMine = true → p { e with isRevealed := true } = p e) :
    ∀ x : Key, cellProp s2 p x = cellProp s p x := by
  intro x
  unfold cellProp
  rw [hcells]
  unfold revealAllMines
  cases hcx : s.cells x with
  | none => rfl
  | some e =>
      dsimp only
      by_cases hme : e.isMine = true
      · rw [if_pos hme]
        exact hp e hme
      · rw [if_neg hme]

theorem isSome_revealAllMines (cells : Key → Option CellState) (x : Key) :
    ((revealAllMines cells) x).isSome = (cells x).isSome := by
  unfold revealAllMines
  cases cells x <;> rfl

theorem EngineInv.processRevealQueue_pres (s0 s : GameState) (hinv : EngineInv s0 s) :
    EngineInv s0 (processRevealQueue s) := by
  cases hq : s.revealQueue with
  | nil =>
      rw [prq_empty s hq]
      exact ⟨hinv.pillars_eq, hinv.nodup, hinv.mineCount_eq, hinv.immortal_eq, hinv.dom_iff,
        hinv.static_eq, hinv.flag_acct, hinv.imm_mark, hinv.imm_off, hinv.won_iff,
        hinv.lost_unsafe, fun _ => ⟨hq, rfl⟩⟩
  | cons k q =>
      by_cases hst : s.gameStatus = GameStatus.playing
      case neg =>
        exact absurd (hinv.idle_done hst).1 (by rw [hq]; simp)
      case pos =>
        cases hck : s.cells k with
        | none =>
            rw [prq_missing s k q hq hck]
            exact EngineInv.requeue s0 s hinv hst q s.isRevealing
        | some c =>
            by_cases hr : c.isRevealed = true
            · rw [prq_stale s k q c hq hck (Or.inr (Or.inl hr))]
              exact EngineInv.requeue s0 s hinv hst q s.isRevealing
            · by_cases hf : c.isFlagged = true
              · rw [prq_stale s k q c hq hck (Or.inr (Or.inr hf))]
                exact EngineInv.requeue s0 s hinv hst q s.isRevealing
              · have hrf : c.isRevealed = false := Bool.eq_false_iff.mpr hr
                have hff : c.isFlagged = false := Bool.eq_false_iff.mpr hf
                have himm : c.isImmortalMine = false := by
                  cases himc : c.isImmortalMine with
                  | false => rfl
                  | true => exact absurd (hinv.imm_mark k c hck himc).2 hr
                have hk0 : k ∈ s0.pillars := (hinv.dom_iff k).mp (by rw [hck]; rfl)
                have hks : k ∈ s.pillars := by rw [hinv.pillars_eq]; exact hk0
                have hnds : s.pillars.Nodup := by rw [hinv.pillars_eq]; exact hinv.nodup
                by_cases hm : c.isMine = true
                · by_cases him : s.immortalMode = true
                  · -- immortal-mode mine: flag it in place and continue
                    rw [prq_mine_immortal s k q c hq hck hst hrf hff hm him]
                    have hcntF := countCells_setCell_of_eq s
                      { s with
                        cells := setCell s.cells k
                          { c with isRevealed := true, isFlagged := true, isImmortalMine := true }
                        revealQueue := q } k c
                      { c with isRevealed := true, isFlagged := true, isImmortalMine := true }
                      rfl rfl hnds hks hck (fun d => d.isFlagged && !d.isImmortalMine)
                    have hcntU := countCells_setCell_of_eq s
                      { s with
                        cells := setCell s.cells k
                          { c with isRevealed := true, isFlagged := true, isImmortalMine := true }
                        revealQueue := q } k c
                      { c with isRevealed := true, isFlagged := true, isImmortalMine := true }
                      rfl rfl hnds hks hck (fun d => !d.isMine && !d.isRevealed)
                    rw [show (c.isFlagged && !c.isImmortalMine) = false from by rw [hff]; rfl,
                      show (((true : Bool)) && !(true : Bool)) = false from rfl,
                      if_neg (by decide : ¬(false = true))] at hcntF
                    rw [show (!c.isMine && !c.isRevealed) = false from by rw [hm]; rfl,
                      show (!c.isMine && !(true : Bool)) = false from by simp,
                      if_neg (by decide : ¬(false = true))] at hcntU
                    have hsc : countSafeUnrevealed
                        { s with
                          cells := setCell s.cells k
                            { c with isRevealed := true, isFlagged := true, isImmortalMine := true }
                          revealQueue := q } = countSafeUnrevealed s := by
                      unfold countSafeUnrevealed
                      omega
                    refine ⟨hinv.pillars_eq, hinv.nodup, hinv.mineCount_eq, hinv.immortal_eq,
                      ?_, ?_, ?_, ?_, ?_, ?_, ?_, ?_⟩
                    · exact dom_iff_setCell s0 s _ k c _ hinv.dom_iff hck rfl
                    · exact static_eq_setCell s0 s _ k c _ hinv.static_eq hck rfl rfl rfl
                    · have hfa := hinv.flag_acct
                      unfold countFlaggedProper at hfa ⊢
                      show s.flagCount = _
                      omega
                    · exact imm_mark_setCell s0 s _ k c _ hinv.imm_mark rfl
                        (fun _ => ⟨rfl, rfl⟩)
                    · intro hoff
                      exact absurd (him.symm.trans hoff) (by decide)
                    · rw [show ({ s with
                          cells := setCell s.cells k
                            { c with isRevealed := true, isFlagged := true, isImmortalMine := true }
                          revealQueue := q } : GameState).gameStatus = s.gameStatus from rfl, hsc]
                      exact hinv.won_iff
                    · intro hlost
                      rw [hsc]
                      exact hinv.lost_unsafe hlost
                    · intro hterm
                      exact absurd hst hterm
                  · -- normal-mode mine: lose and reveal all mines
                    have himf : s.immortalMode = false := Bool.eq_false_iff.mpr him
                    rw [prq_mine_normal s k q c hq hck hst hrf hff hm himf]
                    have hsafeL : ∀ x ∈ s.pillars,
                        cellProp
                          { s with
                            cells := revealAllMines s.cells,
                            gameStatus := GameStatus.lost, revealQueue := [],
                            isRevealing := false }
                          (fun d => !d.isMine && !d.isRevealed) x
                          = cellProp s (fun d => !d.isMine && !d.isRevealed) x :=
                      fun x _ => cellProp_revealAllMines s _ rfl
                        (fun d => !d.isMine && !d.isRevealed)
                        (fun e hme => by
                          show (!e.isMine && !(true : Bool)) = (!e.isMine && !e.isRevealed)
                          rw [hme]
                          rfl) x
                    have hflagL : ∀ x ∈ s.pillars,
                        cellProp
                          { s with
                            cells := revealAllMines s.cells,
                            gameStatus := GameStatus.lost, revealQueue := [],
                            isRevealing := false }
                          (fun d => d.isFlagged && !d.isImmortalMine) x
                          = cellProp s (fun d => d.isFlagged && !d.isImmortalMine) x :=
                      fun x _ => cellProp_revealAllMines s _ rfl
                        (fun d => d.isFlagged && !d.isImmortalMine) (fun _ _ => rfl) x
                    have hscL : countSafeUnrevealed
                        { s with
                          cells := revealAllMines s.cells, gameStatus := GameStatus.lost,
                          revealQueue := [], isRevealing := false } = countSafeUnrevealed s :=
                      countCells_congr2 s _ _ _ hsafeL rfl
                    have hsne : countSafeUnrevealed s ≠ 0 := by
                      intro h0
                      have hw := hinv.won_iff.mpr h0
                      rw [hst] at hw
                      exact GameStatus.noConfusion hw
                    refine ⟨hinv.pillars_eq, hinv.nodup, hinv.mineCount_eq, hinv.immortal_eq,
                      ?_, ?_, ?_, ?_, ?_, ?_, ?_, ?_⟩
                    · intro x
                      show ((revealAllMines s.cells x).isSome = true ↔ x ∈ s0.pillars)
                      rw [isSome_revealAllMines]
                      exact hinv.dom_iff x
                    · intro x d hd
                      have hd2 : revealAllMines s.cells x = some d := hd
                      unfold revealAllMines at hd2
                      cases hcx : s.cells x with
                      | none => rw [hcx] at hd2; cases hd2
                      | some e =>
                          rw [hcx] at hd2
                          have hde : (if e.isMine = true then { e with isRevealed := true } else e)
                              = d := by injection hd2
                          obtain ⟨c0, hc0, hm0, hn0⟩ := hinv.static_eq x e hcx
                          by_cases hme : e.isMine = true
                          · rw [if_pos hme] at hde
                            exact ⟨c0, hc0, by rw [← hde]; exact hm0, by rw [← hde]; exact hn0⟩
                          · rw [if_neg hme] at hde
                            exact ⟨c0, hc0, by rw [← hde]; exact hm0, by rw [← hde]; exact hn0⟩
                    · have hfa := hinv.flag_acct
                      have hcc := countCells_congr2 s _ _ _ hflagL rfl
                      unfold countFlaggedProper at hfa ⊢
                      show s.flagCount = _
                      rw [hcc]
                      exact hfa
                    · intro x d hd himd
                      have hd2 : revealAllMines s.cells x = some d := hd
                      unfold revealAllMines at hd2
                      cases hcx : s.cells x with
                      | none => rw [hcx] at hd2; cases hd2
                      | some e =>
                          rw [hcx] at hd2
                          have hde : (if e.isMine = true then { e with isRevealed := true } else e)
                              = d := by injection hd2
                          by_cases hme : e.isMine = true
                          · rw [if_pos hme] at hde
                            rw [← hde] at himd ⊢
                            have he := hinv.imm_mark x e hcx himd
                            exact ⟨he.1, rfl⟩
                          · rw [if_neg hme] at hde
                            rw [← hde] at himd ⊢
                            exact hinv.imm_mark x e hcx himd
                    · intro hoff x d hd
                      have hd2 : revealAllMines s.cells x = some d := hd
                      unfold revealAllMines at hd2
                      cases hcx : s.cells x with
                      | none => rw [hcx] at hd2; cases hd2
                      | some e =>
                          rw [hcx] at hd2
                          have hde : (if e.isMine = true then { e with isRevealed := true } else e)
                              = d := by injection hd2
                          have he := hinv.imm_off hoff x e hcx
                          by_cases hme : e.isMine = true
                          · rw [if_pos hme] at hde
                            rw [← hde]
                            exact he
                          · rw [if_neg hme] at hde
                            rw [← hde]
                            exact he
                    · constructor
                      · intro h
                        exact GameStatus.noConfusion h
                      · intro h
                        rw [hscL] at h
                        exact absurd h hsne
                    · intro _
                      rw [hscL]
                      exact hsne
                    · intro _
                      exact ⟨rfl, rfl⟩
                · -- safe cell: reveal it
                  have hmf : c.isMine = false := Bool.eq_false_iff.mpr hm
                  rw [prq_safe s k q c hq hck hst hrf hff hmf]
                  by_cases hwin : countSafeUnrevealed
                      { s with
                        cells := setCell s.cells k
                          { c with isRevealed := true, isFlagged := false } } = 0
                  · rw [if_pos hwin]
                    have hcntF := countCells_setCell_of_eq s
                      { s with
                        cells := setCell s.cells k
                          { c with isRevealed := true, isFlagged := false }
                        gameStatus := GameStatus.won, revealQueue := [], isRevealing := false } k c
                      { c with isRevealed := true, isFlagged := false }
                      rfl rfl hnds hks hck (fun d => d.isFlagged && !d.isImmortalMine)
                    rw [show (c.isFlagged && !c.isImmortalMine) = false from by rw [hff]; rfl,
                      show (((false : Bool)) && !c.isImmortalMine) = false from rfl,
                      if_neg (by decide : ¬(false = true))] at hcntF
                    refine ⟨hinv.pillars_eq, hinv.nodup, hinv.mineCount_eq, hinv.immortal_eq,
                      ?_, ?_, ?_, ?_, ?_, ?_, ?_, ?_⟩
                    · exact dom_iff_setCell s0 s _ k c _ hinv.dom_iff hck rfl
                    · exact static_eq_setCell s0 s _ k c _ hinv.static_eq hck rfl rfl rfl
                    · have hfa := hinv.flag_acct
                      unfold countFlaggedProper at hfa ⊢
                      show s.flagCount = _
                      omega
                    · exact imm_mark_setCell s0 s _ k c _ hinv.imm_mark rfl
                        (fun hbad => absurd (himm.symm.trans hbad) (by decide))
                    · intro hoff
                      exact imm_off_setCell s0 s _ k c _ (hinv.imm_off hoff) rfl himm
                    · exact iff_of_true rfl hwin
                    · intro h
                      exact GameStatus.noConfusion h
                    · intro _
                      exact ⟨rfl, rfl⟩
                  · rw [if_neg hwin]
                    have hcntF := countCells_setCell_of_eq s
                      { s with
                        cells := setCell s.cells k
                          { c with isRevealed := true, isFlagged := false }
                        revealQueue :=
                          if c.neighborMineCount = 0 then
                            cascadeNeighbors s.pillars
                              (setCell s.cells k { c with isRevealed := true, isFlagged := false })
                              k q ++ q
                          else q } k c
                      { c with isRevealed := true, isFlagged := false }
                      rfl rfl hnds hks hck (fun d => d.isFlagged && !d.isImmortalMine)
                    rw [show (c.isFlagged && !c.isImmortalMine) = false from by rw [hff]; rfl,
                      show (((false : Bool)) && !c.isImmortalMine) = false from rfl,
                      if_neg (by decide : ¬(false = true))] at hcntF
                    refine ⟨hinv.pillars_eq, hinv.nodup, hinv.mineCount_eq, hinv.immortal_eq,
                      ?_, ?_, ?_, ?_, ?_, ?_, ?_, ?_⟩
                    · exact dom_iff_setCell s0 s _ k c _ hinv.dom_iff hck rfl
                    · exact static_eq_setCell s0 s _ k c _ hinv.static_eq hck rfl rfl rfl
                    · have hfa := hinv.flag_acct
                      unfold countFlaggedProper at hfa ⊢
                      show s.flagCount = _
                      omega
                    · exact imm_mark_setCell s0 s _ k c _ hinv.imm_mark rfl
                        (fun hbad => absurd (himm.symm.trans hbad) (by decide))
                    · intro hoff
                      exact imm_off_setCell s0 s _ k c _ (hinv.imm_off hoff) rfl himm
                    · constructor
                      · intro h
                        exact absurd (hst.symm.trans h) (by decide)
                      · intro h
                        exact absurd h hwin
                    · intro h
                      exact absurd (hst.symm.trans h) (by decide)
                    · intro hterm
                      exact absurd hst hterm

/-! ### Establishing the invariant at initialization -/

theorem countP_not_add (l : List Key) (p : Key → Bool) :
    l.countP (fun x => !p x) + l.countP p = l.length := by
  induction l with
  | nil => rfl
  | cons a t ih =>
      rw [List.countP_cons, List.countP_cons, List.length_cons]
      cases hp : p a <;> simp [hp] <;> omega

theorem countP_three (l : List Key) (p q r : Key → Bool)
    (h : ∀ x ∈ l, (if p x then 1 else 0) + (if q x then 1 else 0) +
      (if r x then 1 else 0) = 1) :
    l.countP p + l.countP q + l.countP r = l.length := by
  induction l with
  | nil => rfl
  | cons a t ih =>
      rw [List.countP_cons, List.countP_cons, List.countP_cons, List.length_cons]
      have ha := h a (List.mem_cons_self a t)
      have ht := ih (fun x hx => h x (List.mem_cons_of_mem a hx))
      omega

/-- Everything `initializeGame` guarantees about the session it builds. -/
theorem initializeGame_props (pillars : List Key) (target : Nat) (stream : Nat → Nat)
    (fuel : Nat) (immortal : Bool) (s0 : GameState)
    (h : initializeGame pillars target stream fuel immortal = some s0) :
    s0.pillars = pillars ∧ s0.gameStatus = GameStatus.playing ∧ s0.flagCount = 0 ∧
    s0.revealQueue = [] ∧ s0.isRevealing = false ∧ s0.immortalMode = immortal ∧
    ∃ mines : List Key,
      s0.mineCount = mines.length ∧ mines.length = min target (pillars.length / 5) ∧
      (∀ x ∈ mines, x ∈ pillars) ∧ mines.Nodup ∧
      (∀ k : Key, s0.cells k = if k ∈ pillars then
        some { isMine := decide (k ∈ mines), isRevealed := false, isFlagged := false,
               neighborMineCount := ((getNeighbors k pillars).filter
                 (fun n => decide (n ∈ mines))).length,
               isImmortalMine := false } else none) := by
  unfold initializeGame at h
  cases hg : generateSolvablePuzzle pillars target stream fuel with
  | none => rw [hg] at h; cases h
  | some pr =>
      rw [hg] at h
      simp only [Option.map_some', Option.some.injEq] at h
      obtain ⟨mines, actual⟩ := pr
      obtain ⟨ha, hb, hc, hd⟩ := generateSolvablePuzzle_some_props pillars target stream
        fuel mines actual hg
      refine ⟨by rw [← h], by rw [← h], by rw [← h], by rw [← h], by rw [← h], by rw [← h],
        mines, by rw [← h]; exact ha, hb, hc, hd, ?_⟩
      intro k
      rw [← h]

/-- The generated mine count matches the number of mine cells on the board. -/
theorem initializeGame_countMines (pillars : List Key) (target : Nat) (stream : Nat → Nat)
    (fuel : Nat) (immortal : Bool) (s0 : GameState)
    (h : initializeGame pillars target stream fuel immortal = some s0)
    (hnd : pillars.Nodup) : countMines s0 = s0.mineCount := by
  obtain ⟨hp, -, -, -, -, -, mines, hmc, -, hsub, hmnd, hcells⟩ :=
    initializeGame_props pillars target stream fuel immortal s0 h
  have h1 : countMines s0 = pillars.countP (fun k => decide (k ∈ mines)) := by
    unfold countMines countCells
    rw [hp]
    refine countP_congr_on pillars _ _ ?_
    intro x hx
    simp [cellProp, hcells x, hx]
  rw [h1, countP_mem_nodup pillars mines hnd hmnd hsub, hmc]

/-- The invariant holds at a freshly initialized non-empty session. -/
theorem EngineInv.init (pillars : List Key) (target : Nat) (stream : Nat → Nat)
    (fuel : Nat) (immortal : Bool) (s0 : GameState)
    (h : initializeGame pillars target stream fuel immortal = some s0)
    (hne : pillars ≠ []) (hnd : pillars.Nodup) : EngineInv s0 s0 := by
  obtain ⟨hp, hstt, hfc, hrq, hirv, him, mines, hmc, hmlen, hsub, hmnd, hcells⟩ :=
    initializeGame_props pillars target stream fuel immortal s0 h
  have hfields : ∀ k c, s0.cells k = some c →
      c.isRevealed = false ∧ c.isFlagged = false ∧ c.isImmortalMine = false := by
    intro k c hc
    rw [hcells k] at hc
    by_cases hk : k ∈ pillars
    · rw [if_pos hk] at hc
      injection hc with h2
      rw [← h2]
      exact ⟨rfl, rfl, rfl⟩
    · rw [if_neg hk] at hc
      cases hc
  have hsafe : countSafeUnrevealed s0 = pillars.length - mines.length := by
    have h1 : countSafeUnrevealed s0 = pillars.countP (fun k => !(decide (k ∈ mines))) := by
      unfold countSafeUnrevealed countCells
      rw [hp]
      refine countP_congr_on pillars _ _ ?_
      intro x hx
      simp [cellProp, hcells x, hx]
    have h2 := countP_not_add pillars (fun k => decide (k ∈ mines))
    have h3 := countP_mem_nodup pillars mines hnd hmnd hsub
    omega
  have hlen : mines.length < pillars.length := by
    have hpos : 0 < pillars.length := List.length_pos.mpr hne
    have : pillars.length / 5 < pillars.length := Nat.div_lt_self hpos (by omega)
    omega
  have hsne : countSafeUnrevealed s0 ≠ 0 := by omega
  refine ⟨rfl, by rw [hp]; exact hnd, rfl, rfl, ?_, ?_, ?_, ?_, ?_, ?_, ?_, ?_⟩
  · intro k
    rw [hcells k, hp]
    by_cases hk : k ∈ pillars
    · simp [hk]
    · simp [hk]
  · intro k c hc
    exact ⟨c, hc, rfl, rfl⟩
  · rw [hfc]
    have : countFlaggedProper s0 = 0 := by
      unfold countFlaggedProper countCells
      rw [List.countP_eq_zero]
      intro a ha
      cases hca : s0.cells a with
      | none => simp [cellProp, hca]
      | some c =>
          have := (hfields a c hca).2.1
          simp [cellProp, hca, this]
    rw [this]
    rfl
  · intro k c hc himd
    exact absurd himd (by rw [(hfields k c hc).2.2]; decide)
  · intro _ k c hc
    exact (hfields k c hc).2.2
  · constructor
    · intro hw
      exact absurd (hstt.symm.trans hw) (by decide)
    · intro h0
      exact absurd h0 hsne
  · intro hl
    exact absurd (hstt.symm.trans hl) (by decide)
  · intro hterm
    exact absurd hstt hterm

/-- The invariant is preserved by arbitrary command sequences. -/
theorem EngineInv.run_pres (s0 : GameState) (cmds : List Cmd) :
    ∀ s : GameState, EngineInv s0 s → EngineInv s0 (run s cmds) := by
  induction cmds with
  | nil => intro s hs; exact hs
  | cons cmd rest ih =>
      intro s hs
      have hstep : EngineInv s0 (step s cmd) := by
        cases cmd with
        | enqueue k => exact EngineInv.addToRevealQueue_pres s0 s k hs
        | process => exact EngineInv.processRevealQueue_pres s0 s hs
        | flag k => exact EngineInv.toggleFlag_pres s0 s k hs
      exact ih (step s cmd) hstep

/-- The three-way partition of the board into mines, revealed safe cells and
unrevealed safe cells. -/
theorem countCells_partition (s : GameState)
    (hdom : ∀ k ∈ s.pillars, (s.cells k).isSome = true) :
    countMines s + countRevealedSafe s + countSafeUnrevealed s = s.pillars.length := by
  unfold countMines countRevealedSafe countSafeUnrevealed countCells
  refine countP_three s.pillars _ _ _ ?_
  intro x hx
  cases hcx : s.cells x with
  | none =>
      have hfalse := hdom x hx
      rw [hcx] at hfalse
      cases hfalse
  | some c =>
      simp only [cellProp, hcx]
      cases hcm : c.isMine <;> cases hcr : c.isRevealed <;> simp

theorem mem_getNeighbors (k x : Key) (pillars : List Key)
    (hx : x ∈ getNeighbors k pillars) : x ∈ pillars := by
  unfold getNeighbors at hx
  rw [List.mem_filter] at hx
  simpa using hx.2

/-! ### C1: the win condition -/

/-- C1.  From a freshly initialized non-empty session, after any sequence of
reveal, process and flag commands, the status is `won` exactly when the number
of revealed non-mine cells equals `layoutSize - mineCount` (equivalently, no
safe cell is unrevealed); and once `won` is reached the status stays `won`
under every further command sequence, so the playing-to-won transition happens
exactly once. -/
theorem claim_C1_win_iff_once (pillars : List Key) (target : Nat) (stream : Nat → Nat)
    (fuel : Nat) (immortal : Bool) (s0 : GameState)
    (hinit : initializeGame pillars target stream fuel immortal = some s0)
    (hne : pillars ≠ []) (hnd : pillars.Nodup) (cmds more : List Cmd) :
    ((run s0 cmds).gameStatus = GameStatus.won ↔
      countRevealedSafe (run s0 cmds) = pillars.length - (run s0 cmds).mineCount) ∧
    ((run s0 cmds).gameStatus = GameStatus.won →
      (run (run s0 cmds) more).gameStatus = GameStatus.won) := by
  have hinv : EngineInv s0 (run s0 cmds) :=
    EngineInv.run_pres s0 cmds s0
      (EngineInv.init pillars target stream fuel immortal s0 hinit hne hnd)
  obtain ⟨hp, hstt, -, -, -, -, -⟩ :=
    initializeGame_props pillars target stream fuel immortal s0 hinit
  have hdoms : ∀ k ∈ (run s0 cmds).pillars, ((run s0 cmds).cells k).isSome = true := by
    intro k hk
    exact (hinv.dom_iff k).mpr (by rw [← hinv.pillars_eq]; exact hk)
  have hpart := countCells_partition (run s0 cmds) hdoms
  have hcm : countMines (run s0 cmds) = (run s0 cmds).mineCount := by
    rw [EngineInv.countMines_pres s0 (run s0 cmds) hinv,
      initializeGame_countMines pillars target stream fuel immortal s0 hinit hnd,
      hinv.mineCount_eq]
  have hplen : (run s0 cmds).pillars.length = pillars.length := by
    rw [hinv.pillars_eq, hp]
  constructor
  · rw [hinv.won_iff]
    rw [hplen] at hpart
    omega
  · intro hwon
    have hterm : (run s0 cmds).gameStatus ≠ GameStatus.playing := by
      rw [hwon]
      decide
    have hfr := run_terminal_frozen more (run s0 cmds) hterm (hinv.idle_done hterm).1
    rw [hfr.2.1, hwon]

/-- Witness for C1 at a two-cell zero-mine board where revealing one cell
cascades to the other and wins. -/
theorem claim_C1_witness :
    ((run wBoard2 [Cmd.enqueue (0, 0), Cmd.process, Cmd.process]).gameStatus =
        GameStatus.won ↔
      countRevealedSafe (run wBoard2 [Cmd.enqueue (0, 0), Cmd.process, Cmd.process]) =
        wLayout2.length -
          (run wBoard2 [Cmd.enqueue (0, 0), Cmd.process, Cmd.process]).mineCount) ∧
    ((run wBoard2 [Cmd.enqueue (0, 0), Cmd.process, Cmd.process]).gameStatus =
        GameStatus.won →
      (run (run wBoard2 [Cmd.enqueue (0, 0), Cmd.process, Cmd.process])
          [Cmd.flag (1, 0)]).gameStatus = GameStatus.won) :=
  claim_C1_win_iff_once wLayout2 0 wStream0 1 false wBoard2 rfl (by decide) (by decide)
    [Cmd.enqueue (0, 0), Cmd.process, Cmd.process] [Cmd.flag (1, 0)]

/-! ### C3: adjacency correctness and immutability -/

/-- C3.  In every state reachable from a freshly initialized non-empty session,
every cell carries the neighbor mine count computed at initialization: the
number of its six axial-offset neighbors that are in the layout and hold a
mine in the current state.  Since this holds after any command sequence, no
reveal, process or flag command ever changes it. -/
theorem claim_C3_adjacency_correct (pillars : List Key) (target : Nat)
    (stream : Nat → Nat) (fuel : Nat) (immortal : Bool) (s0 : GameState)
    (hinit : initializeGame pillars target stream fuel immortal = some s0)
    (hne : pillars ≠ []) (hnd : pillars.Nodup) (cmds : List Cmd) :
    ∀ (k : Key) (c : CellState), (run s0 cmds).cells k = some c →
      c.neighborMineCount = ((getNeighbors k pillars).filter
        (fun n => cellProp (run s0 cmds) (fun d => d.isMine) n)).length := by
  have hinv : EngineInv s0 (run s0 cmds) :=
    EngineInv.run_pres s0 cmds s0
      (EngineInv.init pillars target stream fuel immortal s0 hinit hne hnd)
  obtain ⟨hp, -, -, -, -, -, mines, -, -, -, -, hcells⟩ :=
    initializeGame_props pillars target stream fuel immortal s0 hinit
  have hlit : ∀ (x : Key) (d : CellState), s0.cells x = some d →
      d.isMine = decide (x ∈ mines) ∧
      d.neighborMineCount = ((getNeighbors x pillars).filter
        (fun n => decide (n ∈ mines))).length := by
    intro x d hd
    rw [hcells x] at hd
    by_cases hxp : x ∈ pillars
    · rw [if_pos hxp] at hd
      injection hd with h2
      rw [← h2]
      exact ⟨rfl, rfl⟩
    · rw [if_neg hxp] at hd
      cases hd
  intro k c hc
  obtain ⟨c0, hc0, hm0, hn0⟩ := hinv.static_eq k c hc
  have hfilter : (getNeighbors k pillars).filter
      (fun n => cellProp (run s0 cmds) (fun d => d.isMine) n)
      = (getNeighbors k pillars).filter (fun n => decide (n ∈ mines)) := by
    refine List.filter_congr ?_
    intro n hn
    have hnp : n ∈ pillars := mem_getNeighbors k n pillars hn
    have hns : ((run s0 cmds).cells n).isSome = true :=
      (hinv.dom_iff n).mpr (by rw [hp]; exact hnp)
    cases hcn : (run s0 cmds).cells n with
    | none => rw [hcn] at hns; cases hns
    | some d =>
        obtain ⟨d0, hd0, hdm, -⟩ := hinv.static_eq n d hcn
        have := (hlit n d0 hd0).1
        simp [cellProp, hcn, hdm, this]
  rw [hfilter, hn0, (hlit k c0 hc0).2]

/-- Witness for C3 on the five-cell one-mine board after a flag and a reveal:
the mine cell `(0,0)` stores neighbor count 0, matching the recount over its
in-layout neighbors. -/
theorem claim_C3_witness :
    ((run wBoard5 [Cmd.flag (2, 0), Cmd.enqueue (4, 0), Cmd.process]).cells (0, 0) =
      some { isMine := true, isRevealed := false, isFlagged := false,
             neighborMineCount := 0, isImmortalMine := false }) ∧
    ({ isMine := true, isRevealed := false, isFlagged := false,
       neighborMineCount := 0, isImmortalMine := false } : CellState).neighborMineCount =
      ((getNeighbors (0, 0) wLayout5).filter
        (fun n => cellProp (run wBoard5 [Cmd.flag (2, 0), Cmd.enqueue (4, 0), Cmd.process])
          (fun d => d.isMine) n)).length :=
  ⟨by decide,
    claim_C3_adjacency_correct wLayout5 1 wStream0 3 false wBoard5 rfl (by decide) (by decide)
      [Cmd.flag (2, 0), Cmd.enqueue (4, 0), Cmd.process] (0, 0)
      { isMine := true, isRevealed := false, isFlagged := false,
        neighborMineCount := 0, isImmortalMine := false } (by decide)⟩

/-! ### C4: flag counting -/

/-- C4 (amended).  In every reachable state, `flagCount` equals the number of
flagged cells that are not immortal-revealed mines; in normal mode no immortal
mine ever exists, so there `flagCount` equals the number of flagged cells.  In
immortal mode the two can differ, because the immortal branch of
`processRevealQueue` sets `isFlagged` on the popped mine without touching
`flagCount` (see the counterexample). -/
theorem claim_C4_flag_accounting (pillars : List Key) (target : Nat) (stream : Nat → Nat)
    (fuel : Nat) (immortal : Bool) (s0 : GameState)
    (hinit : initializeGame pillars target stream fuel immortal = some s0)
    (hne : pillars ≠ []) (hnd : pillars.Nodup) (cmds : List Cmd) :
    (run s0 cmds).flagCount = (countFlaggedProper (run s0 cmds) : Int) ∧
    (immortal = false →
      (run s0 cmds).flagCount = (countFlagged (run s0 cmds) : Int)) := by
  have hinv : EngineInv s0 (run s0 cmds) :=
    EngineInv.run_pres s0 cmds s0
      (EngineInv.init pillars target stream fuel immortal s0 hinit hne hnd)
  obtain ⟨-, -, -, -, -, him, -⟩ :=
    initializeGame_props pillars target stream fuel immortal s0 hinit
  refine ⟨hinv.flag_acct, ?_⟩
  intro hoff
  have himm : (run s0 cmds).immortalMode = false := by
    rw [hinv.immortal_eq, him, hoff]
  have hcong : countFlaggedProper (run s0 cmds) = countFlagged (run s0 cmds) := by
    unfold countFlaggedProper countFlagged
    refine countCells_congr (run s0 cmds) (run s0 cmds) rfl _ _ ?_
    intro x _
    cases hcx : (run s0 cmds).cells x with
    | none => simp [cellProp, hcx]
    | some c =>
        have hci := hinv.imm_off himm x c hcx
        simp [cellProp, hcx, hci]
  rw [hinv.flag_acct, hcong]

/-- Counterexample to C4 as stated: on the five-cell board in immortal mode,
enqueueing and processing the mine leaves `flagCount = 0` while one cell
(the immortal-revealed mine) has `isFlagged = true`. -/
theorem claim_C4_counterexample :
    ∃ s0 : GameState, initializeGame wLayout5 1 wStream0 3 true = some s0 ∧
      (run s0 [Cmd.enqueue (0, 0), Cmd.process]).flagCount ≠
        (countFlagged (run s0 [Cmd.enqueue (0, 0), Cmd.process]) : Int) := by
  refine ⟨wBoard5i, rfl, ?_⟩
  decide

/-- Witness for the amended C4 on the five-cell normal-mode board after a flag
toggle and a reveal. -/
theorem claim_C4_witness :
    (run wBoard5 [Cmd.flag (2, 0), Cmd.enqueue (4, 0), Cmd.process]).flagCount =
      (countFlaggedProper
        (run wBoard5 [Cmd.flag (2, 0), Cmd.enqueue (4, 0), Cmd.process]) : Int) ∧
    (false = false →
      (run wBoard5 [Cmd.flag (2, 0), Cmd.enqueue (4, 0), Cmd.process]).flagCount =
        (countFlagged (run wBoard5 [Cmd.flag (2, 0), Cmd.enqueue (4, 0), Cmd.process]) : Int)) :=
  claim_C4_flag_accounting wLayout5 1 wStream0 3 false wBoard5 rfl (by decide) (by decide)
    [Cmd.flag (2, 0), Cmd.enqueue (4, 0), Cmd.process]

/-! ### C10: terminal states are idle -/

theorem stepR_idle_pres (s : GameState) (cmd : CmdR)
    (h : s.gameStatus ≠ GameStatus.playing → s.revealQueue = [] ∧ s.isRevealing = false) :
    (stepR s cmd).gameStatus ≠ GameStatus.playing →
      (stepR s cmd).revealQueue = [] ∧ (stepR s cmd).isRevealing = false := by
  cases cmd with
  | enqueue k =>
      show (addToRevealQueue s k).gameStatus ≠ _ →
        (addToRevealQueue s k).revealQueue = [] ∧ (addToRevealQueue s k).isRevealing = false
      cases hc : s.cells k with
      | none => rw [addToRevealQueue_missing s k hc]; exact h
      | some c =>
          by_cases hcond : c.isRevealed = true ∨ c.isFlagged = true ∨
              s.gameStatus ≠ GameStatus.playing
          · rw [addToRevealQueue_skip s k c hc hcond]; exact h
          · have hst : s.gameStatus = GameStatus.playing := by
              by_contra hne
              exact hcond (Or.inr (Or.inr hne))
            have heq : addToRevealQueue s k =
                { s with revealQueue := s.revealQueue ++ [k], isRevealing := true } := by
              unfold addToRevealQueue
              rw [hc]
              dsimp only
              rw [if_neg hcond]
            rw [heq]
            intro hterm
            exact absurd hst hterm
  | flag k =>
      show (toggleFlag s k).gameStatus ≠ _ →
        (toggleFlag s k).revealQueue = [] ∧ (toggleFlag s k).isRevealing = false
      by_cases hst : s.gameStatus ≠ GameStatus.playing
      · rw [toggleFlag_terminal s k hst]; exact h
      · have hstp := not_not.mp hst
        have hgs : (toggleFlag s k).gameStatus = s.gameStatus := by
          unfold toggleFlag
          split
          · rfl
          · cases s.cells k with
            | none => rfl
            | some c =>
                dsimp only
                split
                · rfl
                · rfl
        intro hterm
        rw [hgs] at hterm
        exact absurd hstp hterm
  | reset =>
      intro hterm
      exact absurd rfl hterm
  | process =>
      show (processRevealQueue s).gameStatus ≠ _ →
        (processRevealQueue s).revealQueue = [] ∧ (processRevealQueue s).isRevealing = false
      cases hq : s.revealQueue with
      | nil =>
          rw [prq_empty s hq]
          intro _
          exact ⟨hq, rfl⟩
      | cons k q =>
          by_cases hst : s.gameStatus = GameStatus.playing
          · cases hck : s.cells k with
            | none =>
                rw [prq_missing s k q hq hck]
                intro hterm
                exact absurd hst hterm
            | some c =>
                by_cases hr : c.isRevealed = true
                · rw [prq_stale s k q c hq hck (Or.inr (Or.inl hr))]
                  intro hterm
                  exact absurd hst hterm
                · by_cases hf : c.isFlagged = true
                  · rw [prq_stale s k q c hq hck (Or.inr (Or.inr hf))]
                    intro hterm
                    exact absurd hst hterm
                  · have hrf := Bool.eq_false_iff.mpr hr
                    have hff := Bool.eq_false_iff.mpr hf
                    by_cases hm : c.isMine = true
                    · by_cases him : s.immortalMode = true
                      · rw [prq_mine_immortal s k q c hq hck hst hrf hff hm him]
                        intro hterm
                        exact absurd hst hterm
                      · rw [prq_mine_normal s k q c hq hck hst hrf hff hm
                          (Bool.eq_false_iff.mpr him)]
                        intro _
                        exact ⟨rfl, rfl⟩
                    · rw [prq_safe s k q c hq hck hst hrf hff (Bool.eq_false_iff.mpr hm)]
                      split
                      · intro _
                        exact ⟨rfl, rfl⟩
                      · intro hterm
                        exact absurd hst hterm
          · exact absurd (h hst).1 (by rw [hq]; simp)

theorem runR_idle_pres (cmds : List CmdR) :
    ∀ s : GameState,
      (s.gameStatus ≠ GameStatus.playing → s.revealQueue = [] ∧ s.isRevealing = false) →
      ((runR s cmds).gameStatus ≠ GameStatus.playing →
        (runR s cmds).revealQueue = [] ∧ (runR s cmds).isRevealing = false) := by
  induction cmds with
  | nil => intro s hs; exact hs
  | cons cmd rest ih =>
      intro s hs
      exact ih (stepR s cmd) (stepR_idle_pres s cmd hs)

/-- C10.  From a freshly initialized session, under reveal, process, flag and
reset commands, every state with terminal status has an empty reveal queue and
`isRevealing = false`. -/
theorem claim_C10_terminal_idle (pillars : List Key) (target : Nat) (stream : Nat → Nat)
    (fuel : Nat) (immortal : Bool) (s0 : GameState)
    (hinit : initializeGame pillars target stream fuel immortal = some s0)
    (cmds : List CmdR) :
    (runR s0 cmds).gameStatus ≠ GameStatus.playing →
      (runR s0 cmds).revealQueue = [] ∧ (runR s0 cmds).isRevealing = false := by
  obtain ⟨-, hstt, -, -, -, -, -⟩ :=
    initializeGame_props pillars target stream fuel immortal s0 hinit
  exact runR_idle_pres cmds s0 (fun hterm => absurd hstt hterm)

/-- Witness for C10: losing on the five-cell board leaves an empty queue with
`isRevealing` off. -/
theorem claim_C10_witness :
    (runR wBoard5 [CmdR.enqueue (0, 0), CmdR.process]).gameStatus ≠ GameStatus.playing ∧
    (runR wBoard5 [CmdR.enqueue (0, 0), CmdR.process]).revealQueue = [] ∧
    (runR wBoard5 [CmdR.enqueue (0, 0), CmdR.process]).isRevealing = false :=
  ⟨by decide,
    claim_C10_terminal_idle wLayout5 1 wStream0 3 false wBoard5 rfl
      [CmdR.enqueue (0, 0), CmdR.process] (by decide)⟩

/-! ### C7: cascade closure -/

/-- Invariant for normal-mode sessions driven without flag commands: no cell is
flagged, the cell map covers exactly the layout, and while the game is playing
every in-layout neighbor of a revealed zero-count cell is either revealed or
still waiting in the queue. -/
structure CascInv (s : GameState) : Prop where
  dom : ∀ k : Key, (s.cells k).isSome = true ↔ k ∈ s.pillars
  noflag : ∀ k c, s.cells k = some c → c.isFlagged = false
  imm_off : s.immortalMode = false
  oblig : s.gameStatus = GameStatus.playing →
    ∀ k c, s.cells k = some c → c.isRevealed = true → c.neighborMineCount = 0 →
      ∀ n ∈ getNeighbors k s.pillars,
        (∃ d, s.cells n = some d ∧ d.isRevealed = true) ∨ n ∈ s.revealQueue

theorem CascInv.enqueue_pres (s : GameState) (k : Key) (h : CascInv s) :
    CascInv (addToRevealQueue s k) := by
  cases hc : s.cells k with
  | none => rw [addToRevealQueue_missing s k hc]; exact h
  | some c =>
      by_cases hcond : c.isRevealed = true ∨ c.isFlagged = true ∨
          s.gameStatus ≠ GameStatus.playing
      · rw [addToRevealQueue_skip s k c hc hcond]; exact h
      · have heq : addToRevealQueue s k =
            { s with revealQueue := s.revealQueue ++ [k], isRevealing := true } := by
          unfold addToRevealQueue
          rw [hc]
          dsimp only
          rw [if_neg hcond]
        rw [heq]
        refine ⟨h.dom, h.noflag, h.imm_off, ?_⟩
        intro hpl x cx hcx hrev hcnt n hn
        rcases h.oblig hpl x cx hcx hrev hcnt n hn with hd | hnq
        · exact Or.inl hd
        · exact Or.inr (List.mem_append_left _ hnq)

theorem CascInv.process_pres (s : GameState) (h : CascInv s) :
    CascInv (processRevealQueue s) := by
  cases hq : s.revealQueue with
  | nil =>
      rw [prq_empty s hq]
      refine ⟨h.dom, h.noflag, h.imm_off, ?_⟩
      intro hpl x cx hcx hrev hcnt n hn
      rcases h.oblig hpl x cx hcx hrev hcnt n hn with hd | hnq
      · exact Or.inl hd
      · exact Or.inr hnq
  | cons k q =>
      by_cases hst : s.gameStatus = GameStatus.playing
      case neg =>
        cases hck : s.cells k with
        | none =>
            rw [prq_missing s k q hq hck]
            refine ⟨h.dom, h.noflag, h.imm_off, fun hpl => absurd hpl hst⟩
        | some c =>
            rw [prq_stale s k q c hq hck (Or.inl hst)]
            refine ⟨h.dom, h.noflag, h.imm_off, fun hpl => absurd hpl hst⟩
      case pos =>
        cases hck : s.cells k with
        | none =>
            rw [prq_missing s k q hq hck]
            refine ⟨h.dom, h.noflag, h.imm_off, ?_⟩
            intro hpl x cx hcx hrev hcnt n hn
            rcases h.oblig hpl x cx hcx hrev hcnt n hn with hd | hnq
            · exact Or.inl hd
            · rw [hq] at hnq
              rcases List.mem_cons.mp hnq with rfl | hq3
              · exfalso
                have hns := (h.dom n).mpr (mem_getNeighbors x n s.pillars hn)
                rw [hck] at hns
                cases hns
              · exact Or.inr hq3
        | some c =>
            by_cases hr : c.isRevealed = true
            · rw [prq_stale s k q c hq hck (Or.inr (Or.inl hr))]
              refine ⟨h.dom, h.noflag, h.imm_off, ?_⟩
              intro hpl x cx hcx hrev hcnt n hn
              rcases h.oblig hpl x cx hcx hrev hcnt n hn with hd | hnq
              · exact Or.inl hd
              · rw [hq] at hnq
                rcases List.mem_cons.mp hnq with rfl | hq3
                · exact Or.inl ⟨c, hck, hr⟩
                · exact Or.inr hq3
            · by_cases hf : c.isFlagged = true
              · exact absurd (h.noflag k c hck) (by rw [hf]; decide)
              · have hrf := Bool.eq_false_iff.mpr hr
                have hff := Bool.eq_false_iff.mpr hf
                by_cases hm : c.isMine = true
                · by_cases him : s.immortalMode = true
                  · exact absurd (h.imm_off.symm.trans him) (by decide)
                  · rw [prq_mine_normal s k q c hq hck hst hrf hff hm
                      (Bool.eq_false_iff.mpr him)]
                    refine ⟨?_, ?_, h.imm_off, ?_⟩
                    · intro x
                      show ((revealAllMines s.cells x).isSome = true ↔ x ∈ s.pillars)
                      rw [isSome_revealAllMines]
                      exact h.dom x
                    · intro x d hd
                      have hd2 : revealAllMines s.cells x = some d := hd
                      unfold revealAllMines at hd2
                      cases hcx : s.cells x with
                      | none => rw [hcx] at hd2; cases hd2
                      | some e =>
                          rw [hcx] at hd2
                          have hde : (if e.isMine = true then { e with isRevealed := true }
                              else e) = d := by injection hd2
                          have he := h.noflag x e hcx
                          by_cases hme : e.isMine = true
                          · rw [if_pos hme] at hde
                            rw [← hde]
                            exact he
                          · rw [if_neg hme] at hde
                            rw [← hde]
                            exact he
                    · intro hpl
                      exact GameStatus.noConfusion hpl
                · have hmf := Bool.eq_false_iff.mpr hm
                  rw [prq_safe s k q c hq hck hst hrf hff hmf]
                  have hnoflag2 : ∀ x d,
                      setCell s.cells k { c with isRevealed := true, isFlagged := false } x =
                        some d → d.isFlagged = false := by
                    intro x d hd
                    by_cases hxk : x = k
                    · rw [hxk, setCell_self] at hd
                      injection hd with hd2
                      rw [← hd2]
                    · rw [setCell_other _ _ _ _ hxk] at hd
                      exact h.noflag x d hd
                  by_cases hwin : countSafeUnrevealed
                      { s with
                        cells := setCell s.cells k
                          { c with isRevealed := true, isFlagged := false } } = 0
                  · rw [if_pos hwin]
                    refine ⟨?_, hnoflag2, h.imm_off, ?_⟩
                    · exact dom_iff_setCell s s _ k c _ h.dom hck rfl
                    · intro hpl
                      exact GameStatus.noConfusion hpl
                  · rw [if_neg hwin]
                    refine ⟨?_, hnoflag2, h.imm_off, ?_⟩
                    · exact dom_iff_setCell s s _ k c _ h.dom hck rfl
                    · intro hpl x cx hcx hrev hcnt n hn
                      have hcx2 : setCell s.cells k
                          { c with isRevealed := true, isFlagged := false } x = some cx := hcx
                      have hn2 : n ∈ getNeighbors x s.pillars := hn
                      show (∃ d, setCell s.cells k
                          { c with isRevealed := true, isFlagged := false } n = some d ∧
                          d.isRevealed = true) ∨
                        n ∈ (if c.neighborMineCount = 0 then
                          cascadeNeighbors s.pillars
                            (setCell s.cells k { c with isRevealed := true, isFlagged := false })
                            k q ++ q
                          else q)
                      by_cases hxk : x = k
                      · rw [hxk, setCell_self] at hcx2
                        injection hcx2 with hcc
                        have hc0 : c.neighborMineCount = 0 := by
                          rw [← show ({ c with isRevealed := true, isFlagged := false} :
                            CellState).neighborMineCount = c.neighborMineCount from rfl, hcc]
                          exact hcnt
                        by_cases hnrev : ∃ d, setCell s.cells k
                            { c with isRevealed := true, isFlagged := false } n = some d ∧
                            d.isRevealed = true
                        · exact Or.inl hnrev
                        · right
                          rw [if_pos hc0]
                          by_cases hnq : n ∈ q
                          · exact List.mem_append_right _ hnq
                          · refine List.mem_append_left _ ?_
                            unfold cascadeNeighbors
                            rw [List.mem_filter]
                            refine ⟨by rw [hxk] at hn2; exact hn2, ?_⟩
                            have hnp : n ∈ s.pillars :=
                              mem_getNeighbors k n s.pillars (hxk ▸ hn2)
                            have hns : (s.cells n).isSome = true := (h.dom n).mpr hnp
                            cases hcn : s.cells n with
                            | none => rw [hcn] at hns; cases hns
                            | some dn =>
                                by_cases hnk : n = k
                                · exfalso
                                  exact hnrev ⟨{ c with isRevealed := true, isFlagged := false },
                                    by rw [hnk, setCell_self], rfl⟩
                                · have hc2n : setCell s.cells k
                                      { c with isRevealed := true, isFlagged := false } n =
                                      some dn := by
                                    rw [setCell_other _ _ _ _ hnk]
                                    exact hcn
                                  have hdrev : dn.isRevealed = false := by
                                    cases hdr : dn.isRevealed
                                    · rfl
                                    · exact absurd ⟨dn, hc2n, hdr⟩ hnrev
                                  have hdf : dn.isFlagged = false := h.noflag n dn hcn
                                  rw [hc2n]
                                  simp [hdrev, hdf, hnq]
                      · rw [setCell_other _ _ _ _ hxk] at hcx2
                        rcases h.oblig hst x cx hcx2 hrev hcnt n hn2 with ⟨d, hd, hdrev⟩ | hnq
                        · left
                          by_cases hnk : n = k
                          · exact ⟨{ c with isRevealed := true, isFlagged := false },
                              by rw [hnk, setCell_self], rfl⟩
                          · exact ⟨d, by rw [setCell_other _ _ _ _ hnk]; exact hd, hdrev⟩
                        · rw [hq] at hnq
                          rcases List.mem_cons.mp hnq with rfl | hq3
                          · exact Or.inl ⟨{ c with isRevealed := true, isFlagged := false },
                              setCell_self s.cells n _, rfl⟩
                          · right
                            split
                            · exact List.mem_append_right _ hq3
                            · exact hq3

theorem CascInv.crun_pres (cmds : List Cmd) (hnf : ∀ c ∈ cmds, c.noFlag = true) :
    ∀ s : GameState, CascInv s → CascInv (run s cmds) := by
  induction cmds with
  | nil => intro s hs; exact hs
  | cons cmd rest ih =>
      intro s hs
      have hstep : CascInv (step s cmd) := by
        cases cmd with
        | enqueue k => exact CascInv.enqueue_pres s k hs
        | process => exact CascInv.process_pres s hs
        | flag k =>
            exact Bool.noConfusion (hnf (Cmd.flag k) (List.mem_cons_self _ _))
      exact ih (fun c hc => hnf c (List.mem_cons_of_mem cmd hc)) (step s cmd) hstep

theorem CascInv.cascInit (pillars : List Key) (target : Nat) (stream : Nat → Nat)
    (fuel : Nat) (s0 : GameState)
    (h : initializeGame pillars target stream fuel false = some s0) : CascInv s0 := by
  obtain ⟨hp, hstt, -, hrq, -, him, mines, -, -, -, -, hcells⟩ :=
    initializeGame_props pillars target stream fuel false s0 h
  have hfields : ∀ k c, s0.cells k = some c →
      c.isRevealed = false ∧ c.isFlagged = false := by
    intro k c hc
    rw [hcells k] at hc
    by_cases hk : k ∈ pillars
    · rw [if_pos hk] at hc
      injection hc with h2
      rw [← h2]
      exact ⟨rfl, rfl⟩
    · rw [if_neg hk] at hc
      cases hc
  refine ⟨?_, fun k c hc => (hfields k c hc).2, him, ?_⟩
  · intro k
    rw [hcells k, hp]
    by_cases hk : k ∈ pillars
    · simp [hk]
    · simp [hk]
  · intro _ x cx hcx hrev _
    exact absurd ((hfields x cx hcx).1.symm.trans hrev) (by decide)

/-- C7 (amended).  In normal mode, for states reached from a freshly
initialized session without any toggleFlag command, once the reveal queue is
empty (and `isRevealing` is off) while the status is still playing, every
in-layout neighbor of every revealed zero-count cell is revealed — in
particular no non-mine neighbor of such a cell remains hidden.  The
restriction to flag-free normal-mode runs is forced: a flag can make the
cascade skip a neighbor for good (see the counterexample), and in immortal
mode a revealed zero-count mine does not cascade at all. -/
theorem claim_C7_cascade_closure (pillars : List Key) (target : Nat) (stream : Nat → Nat)
    (fuel : Nat) (s0 : GameState)
    (hinit : initializeGame pillars target stream fuel false = some s0)
    (cmds : List Cmd) (hnf : ∀ c ∈ cmds, c.noFlag = true)
    (hq : (run s0 cmds).revealQueue = [])
    (hst : (run s0 cmds).gameStatus = GameStatus.playing)
    (hirv : (run s0 cmds).isRevealing = false) :
    ∀ (k : Key) (c : CellState), (run s0 cmds).cells k = some c → c.isRevealed = true →
      c.neighborMineCount = 0 →
      ∀ n ∈ getNeighbors k (run s0 cmds).pillars,
        ∃ d, (run s0 cmds).cells n = some d ∧ d.isRevealed = true := by
  have hinv : CascInv (run s0 cmds) :=
    CascInv.crun_pres cmds hnf s0 (CascInv.cascInit pillars target stream fuel s0 hinit)
  intro k c hc hrev hcnt n hn
  rcases hinv.oblig hst k c hc hrev hcnt n hn with hd | hnq
  · exact hd
  · rw [hq] at hnq
    cases hnq

/-- Counterexample to C7 as stated: on the mine-free two-cell board, flag the
second cell while it waits in the queue, let the cascade skip it, then unflag
it.  The queue is empty, `isRevealing` is off and the game is still playing,
`(0,0)` is revealed with zero neighbor mine count, and its in-layout non-mine
neighbor `(1,0)` exists, is unflagged, and is still hidden. -/
theorem claim_C7_counterexample :
    ∃ s0 : GameState, initializeGame wLayout2 0 wStream0 1 false = some s0 ∧
      ((run s0 [Cmd.enqueue (0, 0), Cmd.process, Cmd.flag (1, 0), Cmd.process,
          Cmd.process, Cmd.flag (1, 0)]).revealQueue = [] ∧
       (run s0 [Cmd.enqueue (0, 0), Cmd.process, Cmd.flag (1, 0), Cmd.process,
          Cmd.process, Cmd.flag (1, 0)]).isRevealing = false ∧
       (run s0 [Cmd.enqueue (0, 0), Cmd.process, Cmd.flag (1, 0), Cmd.process,
          Cmd.process, Cmd.flag (1, 0)]).gameStatus = GameStatus.playing ∧
       (run s0 [Cmd.enqueue (0, 0), Cmd.process, Cmd.flag (1, 0), Cmd.process,
          Cmd.process, Cmd.flag (1, 0)]).cells (0, 0) =
         some { isMine := false, isRevealed := true, isFlagged := false,
                neighborMineCount := 0, isImmortalMine := false } ∧
       ((1, 0) ∈ getNeighbors (0, 0)
         (run s0 [Cmd.enqueue (0, 0), Cmd.process, Cmd.flag (1, 0), Cmd.process,
            Cmd.process, Cmd.flag (1, 0)]).pillars) ∧
       (run s0 [Cmd.enqueue (0, 0), Cmd.process, Cmd.flag (1, 0), Cmd.process,
          Cmd.process, Cmd.flag (1, 0)]).cells (1, 0) =
         some { isMine := false, isRevealed := false, isFlagged := false,
                neighborMineCount := 0, isImmortalMine := false }) := by
  refine ⟨wBoard2, rfl, ?_⟩
  refine ⟨by decide, by decide, by decide, ?_, by decide, ?_⟩
  · decide
  · decide

/-- A draw stream that always picks index 2. -/
def wStream2 : Nat → Nat := fun _ => 2

/-- Five-cell board with one mine in the middle at `(2,0)`, normal mode. -/
def wBoard5m : GameState := (initializeGame wLayout5 1 wStream2 3 false).getD wEmptyState

/-- Witness for the amended C7: revealing `(0,0)` on the middle-mine board
cascades to `(1,0)` and stops; with the queue drained and the game still
playing, every neighbor of each revealed zero-count cell is revealed. -/
theorem claim_C7_witness :
    ((run wBoard5m [Cmd.enqueue (0, 0), Cmd.process, Cmd.process, Cmd.process]).cells (0, 0) =
      some { isMine := false, isRevealed := true, isFlagged := false,
             neighborMineCount := 0, isImmortalMine := false }) ∧
    ((1, 0) ∈ getNeighbors (0, 0)
      (run wBoard5m [Cmd.enqueue (0, 0), Cmd.process, Cmd.process, Cmd.process]).pillars) ∧
    ∃ d, (run wBoard5m [Cmd.enqueue (0, 0), Cmd.process, Cmd.process,
        Cmd.process]).cells (1, 0) = some d ∧ d.isRevealed = true :=
  ⟨by decide, by decide,
    claim_C7_cascade_closure wLayout5 1 wStream2 3 wBoard5m rfl
      [Cmd.enqueue (0, 0), Cmd.process, Cmd.process, Cmd.process]
      (by decide) (by decide) (by decide) (by decide)
      (0, 0) { isMine := false, isRevealed := true, isFlagged := false,
               neighborMineCount := 0, isImmortalMine := false }
      (by decide) rfl rfl (1, 0) (by decide)⟩

/-! ### C8: synchronous recursion versus queue cascade

The two reveal implementations agree on non-mine starts in normal mode.  Both
final states are characterized against the cascade closure of the starting
coordinate: the least set containing the (existing, non-mine) start and closed
under taking in-layout neighbors of zero-count members. -/

/-- A coordinate whose cell exists and is not a mine (in the initial state). -/
def validTarget (s0 : GameState) (x : Key) : Prop :=
  ∃ c, s0.cells x = some c ∧ c.isMine = false

/-- A coordinate whose cell exists with a zero neighbor mine count. -/
def zeroCell (s0 : GameState) (x : Key) : Prop :=
  ∃ c, s0.cells x = some c ∧ c.neighborMineCount = 0

/-- The cascade closure of a starting coordinate over a fixed initial board. -/
inductive Casc (s0 : GameState) (k0 : Key) : Key → Prop where
  | base : validTarget s0 k0 → Casc s0 k0 k0
  | step (x n : Key) : Casc s0 k0 x → zeroCell s0 x → n ∈ getNeighbors x s0.pillars →
      validTarget s0 n → Casc s0 k0 n

/-- Boolean reading of the revealed bit at a key. -/
def revealedBool (s : GameState) (x : Key) : Bool :=
  cellProp s (fun c => c.isRevealed) x

/-- What a freshly initialized session looks like, in either mode. -/
structure Fresh (s0 : GameState) : Prop where
  nodup : s0.pillars.Nodup
  dom : ∀ k : Key, (s0.cells k).isSome = true ↔ k ∈ s0.pillars
  unrevealed : ∀ k c, s0.cells k = some c → c.isRevealed = false
  unflagged : ∀ k c, s0.cells k = some c → c.isFlagged = false
  noimm : ∀ k c, s0.cells k = some c → c.isImmortalMine = false
  counts : ∀ k c, s0.cells k = some c → c.neighborMineCount =
    ((getNeighbors k s0.pillars).filter
      (fun n => cellProp s0 (fun d => d.isMine) n)).length
  mines_eq : countMines s0 = s0.mineCount
  playing : s0.gameStatus = GameStatus.playing

/-- Invariant of every state reached by either cascade implementation from the
fresh state `s0` with start `k0`: the layout and static data are unchanged,
cells can differ from their initial value only in the revealed bit, each
revealed cell belongs to the closure, and a `won` status certifies that no
safe cell is unrevealed. -/
structure Mid (s0 : GameState) (k0 : Key) (s : GameState) : Prop where
  pillars_eq : s.pillars = s0.pillars
  shape : ∀ x c, s.cells x = some c → ∃ c0, s0.cells x = some c0 ∧
      c = { c0 with isRevealed := c.isRevealed }
  dom2 : ∀ x : Key, (s0.cells x).isSome = true → (s.cells x).isSome = true
  sound : ∀ x c, s.cells x = some c → c.isRevealed = true → Casc s0 k0 x
  mineCount_eq : s.mineCount = s0.mineCount
  imm_eq : s.immortalMode = s0.immortalMode
  status_ok : s.gameStatus = GameStatus.playing ∨ s.gameStatus = GameStatus.won
  won_all : s.gameStatus = GameStatus.won → countSafeUnrevealed s = 0

theorem Casc.valid (s0 : GameState) (k0 x : Key) (h : Casc s0 k0 x) :
    validTarget s0 x := by
  cases h with
  | base hv => exact hv
  | step y n _ _ _ hv => exact hv

theorem Mid.refl (s0 : GameState) (k0 : Key) (hF : Fresh s0) : Mid s0 k0 s0 := by
  refine ⟨rfl, ?_, fun x h => h, ?_, rfl, rfl, Or.inl hF.playing, ?_⟩
  · intro x c hc
    exact ⟨c, hc, rfl⟩
  · intro x c hc hrev
    exact absurd ((hF.unrevealed x c hc).symm.trans hrev) (by decide)
  · intro hw
    exact absurd (hF.playing.symm.trans hw) (by decide)

/-- Facts about a live cell of a mid state, pulled back to the initial board. -/
theorem Mid.cell_facts (s0 : GameState) (k0 : Key) (s : GameState) (hF : Fresh s0)
    (hM : Mid s0 k0 s) (x : Key) (c : CellState) (hc : s.cells x = some c) :
    ∃ c0, s0.cells x = some c0 ∧ c.isMine = c0.isMine ∧
      c.neighborMineCount = c0.neighborMineCount ∧ c.isFlagged = false ∧
      c.isImmortalMine = false ∧ x ∈ s0.pillars := by
  obtain ⟨c0, hc0, hsh⟩ := hM.shape x c hc
  refine ⟨c0, hc0, by rw [hsh], by rw [hsh], ?_, ?_, ?_⟩
  · rw [hsh]
    exact hF.unflagged x c0 hc0
  · rw [hsh]
    exact hF.noimm x c0 hc0
  · exact (hF.dom x).mp (by rw [hc0]; rfl)

/-- All in-layout neighbors of a zero-count cell are valid non-mine targets. -/
theorem zero_nbrs_valid (s0 : GameState) (hF : Fresh s0) (x : Key)
    (h0 : zeroCell s0 x) :
    ∀ n ∈ getNeighbors x s0.pillars,
      validTarget s0 n ∧ cellProp s0 (fun d => d.isMine) n = false := by
  obtain ⟨c0, hc0, hcnt⟩ := h0
  have hfil : ((getNeighbors x s0.pillars).filter
      (fun n => cellProp s0 (fun d => d.isMine) n)).length = 0 := by
    rw [← hF.counts x c0 hc0]
    exact hcnt
  have hnil := List.length_eq_zero.mp hfil
  intro n hn
  have hmf : cellProp s0 (fun d => d.isMine) n = false := by
    cases hb : cellProp s0 (fun d => d.isMine) n
    · rfl
    · exact absurd (hnil ▸ List.mem_filter.mpr ⟨hn, hb⟩) (List.not_mem_nil n)
  have hnp : n ∈ s0.pillars := mem_getNeighbors x n s0.pillars hn
  have hns : (s0.cells n).isSome = true := (hF.dom n).mpr hnp
  cases hcn : s0.cells n with
  | none => rw [hcn] at hns; cases hns
  | some cn =>
      refine ⟨⟨cn, hcn, ?_⟩, hmf⟩
      have : cellProp s0 (fun d => d.isMine) n = cn.isMine := by
        simp [cellProp, hcn]
      rw [← this, hmf]

theorem countSafe0_revealed (s : GameState) (h0 : countSafeUnrevealed s = 0)
    (x : Key) (hx : x ∈ s.pillars) (c : CellState) (hc : s.cells x = some c)
    (hm : c.isMine = false) : c.isRevealed = true := by
  unfold countSafeUnrevealed countCells at h0
  have hz := List.countP_eq_zero.mp h0 x hx
  cases hr : c.isRevealed
  · exact absurd (by simp [cellProp, hc, hm, hr]) hz
  · rfl

theorem Mid.mines_hidden (s0 : GameState) (k0 : Key) (s : GameState)
    (hM : Mid s0 k0 s) :
    ∀ x c, s.cells x = some c → c.isMine = true → c.isRevealed = false := by
  intro x c hc hm
  cases hr : c.isRevealed with
  | false => rfl
  | true =>
      obtain ⟨c0, hc0, hm0⟩ := (hM.sound x c hc hr).valid
      obtain ⟨c0', hc0', hsh⟩ := hM.shape x c hc
      rw [hc0] at hc0'
      injection hc0' with he
      have : c.isMine = false := by rw [hsh, ← he, hm0]
      exact absurd (this.symm.trans hm) (by decide)

theorem Mid.win_formula (s0 : GameState) (k0 : Key) (s : GameState) (hF : Fresh s0)
    (hM : Mid s0 k0 s) :
    ((countRevealed s : Int) = (s.pillars.length : Int) - (s.mineCount : Int)) ↔
      countSafeUnrevealed s = 0 := by
  have hdomfull : ∀ k ∈ s.pillars, (s.cells k).isSome = true := by
    intro k hk
    exact hM.dom2 k ((hF.dom k).mpr (hM.pillars_eq ▸ hk))
  have hpart := countCells_partition s hdomfull
  have hrev_eq : countRevealed s = countRevealedSafe s := by
    unfold countRevealed countRevealedSafe
    refine countCells_congr s s rfl _ _ ?_
    intro x _
    cases hcx : s.cells x with
    | none => simp [cellProp, hcx]
    | some c =>
        cases hm : c.isMine
        · simp [cellProp, hcx, hm]
        · have hr := Mid.mines_hidden s0 k0 s hM x c hcx hm
          simp [cellProp, hcx, hm, hr]
  have hmc : countMines s = s.mineCount := by
    have h1 : countMines s = countMines s0 := by
      refine countCells_congr s0 s hM.pillars_eq _ _ ?_
      intro x hx
      have hxs : (s.cells x).isSome = true := hM.dom2 x ((hF.dom x).mpr hx)
      cases hcx : s.cells x with
      | none => rw [hcx] at hxs; cases hxs
      | some c =>
          obtain ⟨c0, hc0, hsh⟩ := hM.shape x c hcx
          have hmine : c.isMine = c0.isMine := by rw [hsh]
          simp [cellProp, hcx, hc0, hmine]
    rw [h1, hF.mines_eq, hM.mineCount_eq]
  rw [hrev_eq]
  rw [hmc] at hpart
  omega

theorem Mid.reveal (s0 : GameState) (k0 : Key) (s : GameState) (hF : Fresh s0)
    (hM : Mid s0 k0 s) (x : Key) (c : CellState) (hc : s.cells x = some c)
    (hcasc : Casc s0 k0 x) (hplay : s.gameStatus = GameStatus.playing)
    (s2 : GameState) (hp : s2.pillars = s.pillars)
    (hcells : s2.cells = setCell s.cells x { c with isRevealed := true })
    (hmc : s2.mineCount = s.mineCount) (him : s2.immortalMode = s.immortalMode)
    (hgs : s2.gameStatus = s.gameStatus ∨
      (s2.gameStatus = GameStatus.won ∧ countSafeUnrevealed s2 = 0)) : Mid s0 k0 s2 := by
  obtain ⟨c0, hc0, hsh⟩ := hM.shape x c hc
  refine ⟨hp.trans hM.pillars_eq, ?_, ?_, ?_, hmc.trans hM.mineCount_eq,
    him.trans hM.imm_eq, ?_, ?_⟩
  · intro y d hd
    rw [hcells] at hd
    by_cases hyx : y = x
    · rw [hyx, setCell_self] at hd
      injection hd with hd2
      refine ⟨c0, by rw [← hyx] at hc0; exact hc0, ?_⟩
      rw [← hd2, hsh]
    · rw [setCell_other _ _ _ _ hyx] at hd
      exact hM.shape y d hd
  · intro y hy
    rw [hcells]
    by_cases hyx : y = x
    · rw [hyx, setCell_self]
      rfl
    · rw [setCell_other _ _ _ _ hyx]
      exact hM.dom2 y hy
  · intro y d hd hdr
    rw [hcells] at hd
    by_cases hyx : y = x
    · rw [hyx]
      exact hcasc
    · rw [setCell_other _ _ _ _ hyx] at hd
      exact hM.sound y d hd hdr
  · rcases hgs with hgs | hgs
    · exact Or.inl (hgs.trans hplay)
    · exact Or.inr hgs.1
  · intro hwon
    rcases hgs with hgs | hgs
    · exact absurd ((hgs.trans hplay).symm.trans hwon) (by decide)
    · exact hgs.2

/-- Monotone growth of the revealed set. -/
def RevMono (s t : GameState) : Prop :=
  ∀ x : Key, revealedBool s x = true → revealedBool t x = true

/-- Saturation: every cell newly revealed between `s` and `t` that has a zero
count has all of its valid in-layout neighbors revealed in `t`. -/
def Sat (s0 s t : GameState) : Prop :=
  ∀ y : Key, revealedBool t y = true → revealedBool s y = false → zeroCell s0 y →
    ∀ m ∈ getNeighbors y s0.pillars, validTarget s0 m → revealedBool t m = true

theorem RevMono.rfl2 (s : GameState) : RevMono s s := fun _ h => h

theorem RevMono.trans2 (s t u : GameState) (h1 : RevMono s t) (h2 : RevMono t u) :
    RevMono s u := fun x hx => h2 x (h1 x hx)

theorem Sat.srefl (s0 s : GameState) : Sat s0 s s := by
  intro y hy hny _ _ _ _
  exact absurd hy (by rw [hny]; decide)

theorem Sat.strans (s0 s t u : GameState) (hm : RevMono t u) (h1 : Sat s0 s t)
    (h2 : Sat s0 t u) : Sat s0 s u := by
  intro y hy hny h0 m hmn hv
  cases hty : revealedBool t y with
  | true => exact hm m (h1 y hty hny h0 m hmn hv)
  | false => exact h2 y hy hty h0 m hmn hv

theorem countUnrevealed_le_of_mono (s t : GameState) (hp : t.pillars = s.pillars)
    (h : ∀ x ∈ s.pillars, cellProp t (fun c => !c.isRevealed) x = true →
      cellProp s (fun c => !c.isRevealed) x = true) :
    countUnrevealed t ≤ countUnrevealed s := by
  unfold countUnrevealed countCells
  rw [hp]
  exact List.countP_mono_left h

theorem countUnrevealed_setCell_reveal (s : GameState) (x : Key) (c : CellState)
    (hnd : s.pillars.Nodup) (hx : x ∈ s.pillars) (hc : s.cells x = some c)
    (hrev : c.isRevealed = false) (s2 : GameState) (hp : s2.pillars = s.pillars)
    (hcells : s2.cells = setCell s.cells x { c with isRevealed := true }) :
    countUnrevealed s2 + 1 = countUnrevealed s := by
  have hcnt := countCells_setCell_of_eq s s2 x c { c with isRevealed := true } hp hcells
    hnd hx hc (fun d => !d.isRevealed)
  rw [show (!c.isRevealed) = true from by rw [hrev]; rfl] at hcnt
  rw [show (!({ c with isRevealed := true } : CellState).isRevealed) = false from rfl] at hcnt
  rw [if_pos rfl, if_neg (by decide : ¬(false = true))] at hcnt
  unfold countUnrevealed
  omega

theorem getNeighbors_length_le (k : Key) (pillars : List Key) :
    (getNeighbors k pillars).length ≤ 6 := by
  unfold getNeighbors
  calc ((hexOffsets.map (fun o => (k.1 + o.1, k.2 + o.2))).filter
          (fun n => decide (n ∈ pillars))).length
      ≤ (hexOffsets.map (fun o => (k.1 + o.1, k.2 + o.2))).length :=
        List.length_filter_le _ _
    _ = 6 := by rw [List.length_map]; rfl

/-- Clearing an already-clear flag bit while revealing is the identity. -/
theorem cell_reveal_eq (c : CellState) (hf : c.isFlagged = false) :
    ({ c with isRevealed := true, isFlagged := false } : CellState) =
      { c with isRevealed := true } := by
  rw [← hf]

theorem revealedBool_setCell_self (s s2 : GameState) (k : Key) (c : CellState)
    (hcells : s2.cells = setCell s.cells k { c with isRevealed := true }) :
    revealedBool s2 k = true := by
  unfold revealedBool cellProp
  rw [hcells, setCell_self]

theorem revealedBool_setCell_other (s s2 : GameState) (k : Key) (c2 : CellState)
    (hcells : s2.cells = setCell s.cells k c2) (y : Key) (hyk : y ≠ k) :
    revealedBool s2 y = revealedBool s y := by
  unfold revealedBool cellProp
  rw [hcells, setCell_other _ _ _ _ hyk]

theorem revealedBool_setCell_mono (s s2 : GameState) (k : Key) (c : CellState)
    (hcells : s2.cells = setCell s.cells k { c with isRevealed := true }) :
    RevMono s s2 := by
  intro y hy
  by_cases hyk : y = k
  · rw [hyk]
    exact revealedBool_setCell_self s s2 k c hcells
  · rw [revealedBool_setCell_other s s2 k _ hcells y hyk]
    exact hy

/-- In a won mid state, a valid target is revealed. -/
theorem seed_of_won (s0 : GameState) (k0 : Key) (s : GameState) (hF : Fresh s0)
    (hM : Mid s0 k0 s) (hsafe : countSafeUnrevealed s = 0) (x : Key)
    (hv : validTarget s0 x) : revealedBool s x = true := by
  obtain ⟨c0, hc0, hm0⟩ := hv
  have hx : (s.cells x).isSome = true := hM.dom2 x (by rw [hc0]; rfl)
  cases hcx : s.cells x with
  | none => rw [hcx] at hx; cases hx
  | some c =>
      obtain ⟨c0', hc0', hsh⟩ := hM.shape x c hcx
      rw [hc0] at hc0'
      injection hc0' with he
      have hmc : c.isMine = false := by rw [hsh, ← he, hm0]
      have hxp : x ∈ s.pillars := by
        rw [hM.pillars_eq]
        exact (hF.dom x).mp (by rw [hc0]; rfl)
      have hr := countSafe0_revealed s hsafe x hxp c hcx hmc
      unfold revealedBool cellProp
      rw [hcx]
      dsimp only
      exact hr

/-- `Mid` ignores the queue and the `isRevealing` flag. -/
theorem Mid.midRequeue (s0 : GameState) (k0 : Key) (s : GameState)
    (hM : Mid s0 k0 s) (q2 : List Key) (b : Bool) :
    Mid s0 k0 { s with revealQueue := q2, isRevealing := b } :=
  ⟨hM.pillars_eq, hM.shape, hM.dom2, hM.sound, hM.mineCount_eq, hM.imm_eq,
    hM.status_ok, hM.won_all⟩

/-- A freshly initialized session is `Fresh`, in either mode. -/
theorem Fresh.ofInit (pillars : List Key) (target : Nat) (stream : Nat → Nat)
    (fuel : Nat) (immortal : Bool) (s0 : GameState)
    (h : initializeGame pillars target stream fuel immortal = some s0)
    (hnd : pillars.Nodup) : Fresh s0 := by
  obtain ⟨hp, hstt, hfc, hrq, hirv, him, mines, hmc, hmlen, hsub, hmnd, hcells⟩ :=
    initializeGame_props pillars target stream fuel immortal s0 h
  have hfields : ∀ k c, s0.cells k = some c →
      k ∈ pillars ∧ c.isMine = decide (k ∈ mines) ∧ c.isRevealed = false ∧
      c.isFlagged = false ∧ c.isImmortalMine = false ∧
      c.neighborMineCount = ((getNeighbors k pillars).filter
        (fun n => decide (n ∈ mines))).length := by
    intro k c hc
    rw [hcells k] at hc
    by_cases hk : k ∈ pillars
    · rw [if_pos hk] at hc
      injection hc with h2
      rw [← h2]
      exact ⟨hk, rfl, rfl, rfl, rfl, rfl⟩
    · rw [if_neg hk] at hc
      cases hc
  refine ⟨by rw [hp]; exact hnd, ?_, ?_, ?_, ?_, ?_,
    initializeGame_countMines pillars target stream fuel immortal s0 h hnd, hstt⟩
  · intro k
    rw [hcells k, hp]
    by_cases hk : k ∈ pillars
    · simp [hk]
    · simp [hk]
  · intro k c hc
    exact (hfields k c hc).2.2.1
  · intro k c hc
    exact (hfields k c hc).2.2.2.1
  · intro k c hc
    exact (hfields k c hc).2.2.2.2.1
  · intro k c hc
    rw [(hfields k c hc).2.2.2.2.2, hp]
    refine congrArg List.length (List.filter_congr ?_)
    intro n hn
    have hnp : n ∈ pillars := mem_getNeighbors k n pillars hn
    simp [cellProp, hcells n, hnp]

theorem cascadeNeighbors_length_le (pillars : List Key)
    (cells : Key → Option CellState) (k : Key) (q : List Key) :
    (cascadeNeighbors pillars cells k q).length ≤ 6 := by
  unfold cascadeNeighbors
  exact le_trans (List.length_filter_le _ _) (getNeighbors_length_le k pillars)

/-- Queue-side invariant: a mid state plus queue bookkeeping.  Every queued key
is in the closure; while the game is playing, each valid in-layout neighbor of
a revealed zero-count cell is revealed or queued; and the start itself is
revealed or queued. -/
structure QInv (s0 : GameState) (k0 : Key) (s : GameState)
    extends Mid s0 k0 s : Prop where
  qcasc : ∀ x ∈ s.revealQueue, Casc s0 k0 x
  oblig : s.gameStatus = GameStatus.playing →
    ∀ x c, s.cells x = some c → c.isRevealed = true → zeroCell s0 x →
      ∀ n ∈ getNeighbors x s0.pillars, validTarget s0 n →
        revealedBool s n = true ∨ n ∈ s.revealQueue
  seed : validTarget s0 k0 → revealedBool s k0 = true ∨ k0 ∈ s.revealQueue
  wsync : countSafeUnrevealed s = 0 → s.gameStatus = GameStatus.won

theorem QInv.safe_win (s0 : GameState) (k0 : Key) (s : GameState) (hF : Fresh s0)
    (hQ : QInv s0 k0 s) (k : Key) (rest : List Key) (hqe : s.revealQueue = k :: rest)
    (c : CellState) (hc : s.cells k = some c) (hpl : s.gameStatus = GameStatus.playing)
    (hr : c.isRevealed = false)
    (s2 : GameState) (hp2 : s2.pillars = s.pillars)
    (hcells2 : s2.cells = setCell s.cells k { c with isRevealed := true })
    (hmc2 : s2.mineCount = s.mineCount) (him2 : s2.immortalMode = s.immortalMode)
    (hgs2 : s2.gameStatus = GameStatus.won) (hq2 : s2.revealQueue = [])
    (hwin : countSafeUnrevealed s2 = 0) :
    QInv s0 k0 s2 ∧ 7 * countUnrevealed s2 + s2.revealQueue.length + 1 ≤
      7 * countUnrevealed s + s.revealQueue.length := by
  have hM := hQ.toMid
  have hcasck : Casc s0 k0 k := hQ.qcasc k (by rw [hqe]; exact List.mem_cons_self k rest)
  have hM2 : Mid s0 k0 s2 := Mid.reveal s0 k0 s hF hM k c hc hcasck hpl s2 hp2 hcells2
    hmc2 him2 (Or.inr ⟨hgs2, hwin⟩)
  have hnd : s.pillars.Nodup := by rw [hM.pillars_eq]; exact hF.nodup
  obtain ⟨c0, hc0, hmeq, hcnteq, hcf, himm, hkp0⟩ := Mid.cell_facts s0 k0 s hF hM k c hc
  have hkp : k ∈ s.pillars := by rw [hM.pillars_eq]; exact hkp0
  have hdec := countUnrevealed_setCell_reveal s k c hnd hkp hc hr s2 hp2 hcells2
  constructor
  · refine ⟨hM2, ?_, ?_, ?_, fun _ => hgs2⟩
    · intro x hx
      rw [hq2] at hx
      exact absurd hx (List.not_mem_nil x)
    · intro hpl2
      exact absurd (hgs2.symm.trans hpl2) (by decide)
    · intro hv
      exact Or.inl (seed_of_won s0 k0 s2 hF hM2 hwin k0 hv)
  · rw [hq2, hqe, List.length_cons, List.length_nil]
    omega

theorem QInv.safe_step (s0 : GameState) (k0 : Key) (s : GameState) (hF : Fresh s0)
    (hQ : QInv s0 k0 s) (k : Key) (rest : List Key) (hqe : s.revealQueue = k :: rest)
    (c : CellState) (hc : s.cells k = some c) (hpl : s.gameStatus = GameStatus.playing)
    (hr : c.isRevealed = false)
    (s2 : GameState) (hp2 : s2.pillars = s.pillars)
    (hcells2 : s2.cells = setCell s.cells k { c with isRevealed := true })
    (hmc2 : s2.mineCount = s.mineCount) (him2 : s2.immortalMode = s.immortalMode)
    (hgs2 : s2.gameStatus = s.gameStatus)
    (hq2 : s2.revealQueue = (if c.neighborMineCount = 0 then
        cascadeNeighbors s.pillars (setCell s.cells k { c with isRevealed := true }) k rest
          ++ rest
      else rest))
    (hnwin : countSafeUnrevealed s2 ≠ 0) :
    QInv s0 k0 s2 ∧ 7 * countUnrevealed s2 + s2.revealQueue.length + 1 ≤
      7 * countUnrevealed s + s.revealQueue.length := by
  have hM := hQ.toMid
  have hcasck : Casc s0 k0 k := hQ.qcasc k (by rw [hqe]; exact List.mem_cons_self k rest)
  have hM2 : Mid s0 k0 s2 := Mid.reveal s0 k0 s hF hM k c hc hcasck hpl s2 hp2 hcells2
    hmc2 him2 (Or.inl hgs2)
  have hnd : s.pillars.Nodup := by rw [hM.pillars_eq]; exact hF.nodup
  obtain ⟨c0, hc0, hmeq, hcnteq, hcf, himm, hkp0⟩ := Mid.cell_facts s0 k0 s hF hM k c hc
  have hkp : k ∈ s.pillars := by rw [hM.pillars_eq]; exact hkp0
  have hdec := countUnrevealed_setCell_reveal s k c hnd hkp hc hr s2 hp2 hcells2
  have hmono : RevMono s s2 := revealedBool_setCell_mono s s2 k c hcells2
  have hrevk : revealedBool s2 k = true := revealedBool_setCell_self s s2 k c hcells2
  have hzerok : c.neighborMineCount = 0 → zeroCell s0 k := by
    intro h0
    exact ⟨c0, hc0, by rw [← hcnteq]; exact h0⟩
  constructor
  · refine ⟨hM2, ?_, ?_, ?_, fun h => absurd h hnwin⟩
    · intro x hx
      rw [hq2] at hx
      by_cases h0 : c.neighborMineCount = 0
      · rw [if_pos h0] at hx
        rcases List.mem_append.mp hx with hx1 | hx2
        · unfold cascadeNeighbors at hx1
          have hx1' := List.mem_filter.mp hx1
          have hnbr : x ∈ getNeighbors k s0.pillars := by
            rw [← hM.pillars_eq]
            exact hx1'.1
          exact Casc.step k x hcasck (hzerok h0) hnbr
            (zero_nbrs_valid s0 hF k (hzerok h0) x hnbr).1
        · exact hQ.qcasc x (by rw [hqe]; exact List.mem_cons_of_mem k hx2)
      · rw [if_neg h0] at hx
        exact hQ.qcasc x (by rw [hqe]; exact List.mem_cons_of_mem k hx)
    · intro hpl2 x cx hcx hrx h0x n hn hvn
      by_cases hrn : revealedBool s2 n = true
      · exact Or.inl hrn
      have hrn' : revealedBool s2 n = false := by
        cases hb : revealedBool s2 n with
        | true => exact absurd hb hrn
        | false => rfl
      by_cases hxk : x = k
      · subst hxk
        obtain ⟨d0, hd0, hd0c⟩ := h0x
        rw [hc0] at hd0
        injection hd0 with he
        have h0 : c.neighborMineCount = 0 := by rw [hcnteq, he]; exact hd0c
        refine Or.inr ?_
        rw [hq2, if_pos h0]
        by_cases hnr : n ∈ rest
        · exact List.mem_append_right _ hnr
        refine List.mem_append_left _ ?_
        have hn' : n ∈ getNeighbors x s.pillars := by
          rw [hM.pillars_eq]
          exact hn
        have hns : (s2.cells n).isSome = true := by
          obtain ⟨e0, he0, hem⟩ := hvn
          exact hM2.dom2 n (by rw [he0]; rfl)
        cases hs2n : s2.cells n with
        | none => rw [hs2n] at hns; cases hns
        | some d =>
            obtain ⟨d0, hd0', hdm', hdc', hdflag, hdi', hdp'⟩ :=
              Mid.cell_facts s0 k0 s2 hF hM2 n d hs2n
            have hdrev : d.isRevealed = false := by
              unfold revealedBool cellProp at hrn'
              rw [hs2n] at hrn'
              exact hrn'
            have hXn : setCell s.cells x { c with isRevealed := true } n = some d := by
              rw [← hcells2]
              exact hs2n
            unfold cascadeNeighbors
            refine List.mem_filter.mpr ⟨hn', ?_⟩
            rw [hXn]
            dsimp only
            rw [hdrev, hdflag, decide_eq_false hnr]
            rfl
      · have hcx' : s.cells x = some cx := by
          rw [hcells2, setCell_other _ _ _ _ hxk] at hcx
          exact hcx
        have hold := hQ.oblig (hgs2.symm.trans hpl2) x cx hcx' hrx h0x n hn hvn
        rcases hold with hrev | hqmem
        · exact Or.inl (hmono n hrev)
        rw [hqe] at hqmem
        rcases List.mem_cons.mp hqmem with h1 | h2
        · rw [h1]
          exact Or.inl hrevk
        refine Or.inr ?_
        rw [hq2]
        by_cases h0 : c.neighborMineCount = 0
        · rw [if_pos h0]
          exact List.mem_append_right _ h2
        · rw [if_neg h0]
          exact h2
    · intro hv
      rcases hQ.seed hv with hrev | hqmem
      · exact Or.inl (hmono k0 hrev)
      rw [hqe] at hqmem
      rcases List.mem_cons.mp hqmem with h1 | h2
      · rw [h1]
        exact Or.inl hrevk
      refine Or.inr ?_
      rw [hq2]
      by_cases h0 : c.neighborMineCount = 0
      · rw [if_pos h0]
        exact List.mem_append_right _ h2
      · rw [if_neg h0]
        exact h2
  · rw [hq2, hqe, List.length_cons]
    by_cases h0 : c.neighborMineCount = 0
    · rw [if_pos h0, List.length_append]
      have hclen := cascadeNeighbors_length_le s.pillars
        (setCell s.cells k { c with isRevealed := true }) k rest
      omega
    · rw [if_neg h0]
      omega

theorem QInv.requeue_pres (s0 : GameState) (k0 : Key) (s : GameState) (hF : Fresh s0)
    (hQ : QInv s0 k0 s) (k : Key) (rest : List Key) (hqe : s.revealQueue = k :: rest)
    (hcase : s.gameStatus = GameStatus.won ∨ revealedBool s k = true) :
    QInv s0 k0 { s with revealQueue := rest } ∧
      7 * countUnrevealed { s with revealQueue := rest } +
        ({ s with revealQueue := rest } : GameState).revealQueue.length + 1 ≤
      7 * countUnrevealed s + s.revealQueue.length := by
  have hM := hQ.toMid
  have hM2 : Mid s0 k0 { s with revealQueue := rest } :=
    Mid.midRequeue s0 k0 s hM rest s.isRevealing
  constructor
  · refine ⟨hM2, ?_, ?_, ?_, hQ.wsync⟩
    · intro x hx
      exact hQ.qcasc x (by rw [hqe]; exact List.mem_cons_of_mem k hx)
    · intro hpl2 x cx hcx hrx h0x n hn hvn
      rcases hcase with hw | hkrev
      · exact absurd (hw.symm.trans hpl2) (by decide)
      rcases hQ.oblig hpl2 x cx hcx hrx h0x n hn hvn with hrev | hqmem
      · exact Or.inl hrev
      rw [hqe] at hqmem
      rcases List.mem_cons.mp hqmem with h1 | h2
      · rw [h1]
        exact Or.inl hkrev
      · exact Or.inr h2
    · intro hv
      rcases hQ.seed hv with hrev | hqmem
      · exact Or.inl hrev
      rw [hqe] at hqmem
      rcases List.mem_cons.mp hqmem with h1 | h2
      · rcases hcase with hw | hkrev
        · exact Or.inl (seed_of_won s0 k0 s hF hM (hM.won_all hw) k0 hv)
        · rw [h1]
          exact Or.inl hkrev
      · exact Or.inr h2
  · show 7 * countUnrevealed s + rest.length + 1 ≤ 7 * countUnrevealed s + s.revealQueue.length
    rw [hqe, List.length_cons]
    omega

theorem QInv.pop_pres (s0 : GameState) (k0 : Key) (s : GameState) (hF : Fresh s0)
    (hQ : QInv s0 k0 s) (k : Key) (rest : List Key) (hqe : s.revealQueue = k :: rest) :
    QInv s0 k0 (processRevealQueue s) ∧
      7 * countUnrevealed (processRevealQueue s) +
        (processRevealQueue s).revealQueue.length + 1 ≤
      7 * countUnrevealed s + s.revealQueue.length := by
  have hM := hQ.toMid
  rcases hM.status_ok with hpl | hwon
  · cases hck : s.cells k with
    | none =>
        obtain ⟨c0, hc0, hm0⟩ :=
          (hQ.qcasc k (by rw [hqe]; exact List.mem_cons_self k rest)).valid
        have hsome := hM.dom2 k (by rw [hc0]; rfl)
        rw [hck] at hsome
        cases hsome
    | some c =>
        obtain ⟨c0, hc0, hmeq, hcnteq, hcf, himm, hkp0⟩ :=
          Mid.cell_facts s0 k0 s hF hM k c hck
        cases hrv : c.isRevealed with
        | true =>
            rw [prq_stale s k rest c hqe hck (Or.inr (Or.inl hrv))]
            exact QInv.requeue_pres s0 k0 s hF hQ k rest hqe
              (Or.inr (by unfold revealedBool cellProp; rw [hck]; exact hrv))
        | false =>
            cases hmv : c.isMine with
            | true =>
                obtain ⟨c0', hc0', hm0'⟩ :=
                  (hQ.qcasc k (by rw [hqe]; exact List.mem_cons_self k rest)).valid
                rw [hc0] at hc0'
                injection hc0' with he
                have hmf : c.isMine = false := by rw [hmeq, he]; exact hm0'
                exact absurd (hmf.symm.trans hmv) (by decide)
            | false =>
                rw [prq_safe s k rest c hqe hck hpl hrv hcf hmv, cell_reveal_eq c hcf]
                by_cases hwin : countSafeUnrevealed
                    { s with cells := setCell s.cells k { c with isRevealed := true } } = 0
                · rw [if_pos hwin]
                  exact QInv.safe_win s0 k0 s hF hQ k rest hqe c hck hpl hrv _
                    rfl rfl rfl rfl rfl rfl hwin
                · rw [if_neg hwin]
                  exact QInv.safe_step s0 k0 s hF hQ k rest hqe c hck hpl hrv _
                    rfl rfl rfl rfl rfl rfl hwin
  · cases hck : s.cells k with
    | none =>
        rw [prq_missing s k rest hqe hck]
        exact QInv.requeue_pres s0 k0 s hF hQ k rest hqe (Or.inl hwon)
    | some c =>
        rw [prq_stale s k rest c hqe hck (Or.inl (by rw [hwon]; decide))]
        exact QInv.requeue_pres s0 k0 s hF hQ k rest hqe (Or.inl hwon)

theorem QInv.run (s0 : GameState) (k0 : Key) (hF : Fresh s0) :
    ∀ (g : Nat) (s : GameState), QInv s0 k0 s →
      7 * countUnrevealed s + s.revealQueue.length < g →
      QInv s0 k0 (processAll g s) ∧ (processAll g s).revealQueue = [] := by
  intro g
  induction g with
  | zero =>
      intro s hQ hg
      exact absurd hg (by omega)
  | succ g ih =>
      intro s hQ hg
      by_cases hq : s.revealQueue = []
      · have hstop : processAll (g + 1) s = s := by
          unfold processAll
          rw [if_pos hq]
        rw [hstop]
        exact ⟨hQ, hq⟩
      · have hgo : processAll (g + 1) s = processAll g (processRevealQueue s) := by
          show (if s.revealQueue = [] then s else processAll g (processRevealQueue s)) =
            processAll g (processRevealQueue s)
          rw [if_neg hq]
        rw [hgo]
        obtain ⟨k, rest, hqe⟩ : ∃ k rest, s.revealQueue = k :: rest := by
          cases hql : s.revealQueue with
          | nil => exact absurd hql hq
          | cons a b => exact ⟨a, b, rfl⟩
        obtain ⟨hQ2, hmeas⟩ := QInv.pop_pres s0 k0 s hF hQ k rest hqe
        exact ih (processRevealQueue s) hQ2 (by omega)

/-- The queue invariant holds right after enqueueing a non-mine start on a
fresh board with an empty queue. -/
theorem QInv.enqueue_init (s0 : GameState) (k0 : Key) (hF : Fresh s0)
    (hq0 : s0.revealQueue = []) (hm0 : cellProp s0 (fun c => c.isMine) k0 = false)
    (hsne : countSafeUnrevealed s0 ≠ 0) :
    QInv s0 k0 (addToRevealQueue s0 k0) := by
  have hM0 := Mid.refl s0 k0 hF
  unfold addToRevealQueue
  cases hck : s0.cells k0 with
  | none =>
      refine ⟨hM0, ?_, ?_, ?_, fun h => absurd h hsne⟩
      · intro x hx
        rw [hq0] at hx
        exact absurd hx (List.not_mem_nil x)
      · intro hpl x cx hcx hrx h0x n hn hvn
        exact absurd ((hF.unrevealed x cx hcx).symm.trans hrx) (by decide)
      · intro hv
        obtain ⟨c, hc, -⟩ := hv
        rw [hck] at hc
        cases hc
  | some cell =>
      have hrv := hF.unrevealed k0 cell hck
      have hfv := hF.unflagged k0 cell hck
      dsimp only
      rw [if_neg (by simp [hrv, hfv, hF.playing])]
      refine ⟨Mid.midRequeue s0 k0 s0 hM0 (s0.revealQueue ++ [k0]) true, ?_, ?_, ?_,
        fun h => absurd h hsne⟩
      · intro x hx
        rw [hq0] at hx
        rw [List.nil_append] at hx
        rcases List.mem_cons.mp hx with h1 | h2
        · rw [h1]
          refine Casc.base ⟨cell, hck, ?_⟩
          unfold cellProp at hm0
          rw [hck] at hm0
          exact hm0
        · exact absurd h2 (List.not_mem_nil x)
      · intro hpl x cx hcx hrx h0x n hn hvn
        exact absurd ((hF.unrevealed x cx hcx).symm.trans hrx) (by decide)
      · intro hv
        refine Or.inr ?_
        show k0 ∈ s0.revealQueue ++ [k0]
        exact List.mem_append_right _ (List.mem_cons_self k0 [])

/-- At an empty queue, the queue invariant forces every closure member to be
revealed. -/
theorem QInv.complete (s0 : GameState) (k0 : Key) (hF : Fresh s0) (t : GameState)
    (hQ : QInv s0 k0 t) (hqempty : t.revealQueue = []) :
    ∀ x, Casc s0 k0 x → revealedBool t x = true := by
  intro x hx
  induction hx with
  | base hv =>
      rcases hQ.seed hv with h | h
      · exact h
      · rw [hqempty] at h
        exact absurd h (List.not_mem_nil k0)
  | step y n hy h0 hn hv ih =>
      have hex : ∃ cy, t.cells y = some cy ∧ cy.isRevealed = true := by
        unfold revealedBool cellProp at ih
        cases hcy : t.cells y with
        | none => rw [hcy] at ih; cases ih
        | some cy => rw [hcy] at ih; exact ⟨cy, rfl, ih⟩
      obtain ⟨cy, hcy, hcyr⟩ := hex
      rcases hQ.toMid.status_ok with hpl | hwon
      · rcases hQ.oblig hpl y cy hcy hcyr h0 n hn hv with h | h
        · exact h
        · rw [hqempty] at h
          exact absurd h (List.not_mem_nil n)
      · exact seed_of_won s0 k0 t hF hQ.toMid (hQ.toMid.won_all hwon) n hv

theorem countUnrevealed_mono_mid (s0 : GameState) (k0 : Key) (a b : GameState)
    (hMa : Mid s0 k0 a) (hMb : Mid s0 k0 b) (hmono : RevMono a b) :
    countUnrevealed b ≤ countUnrevealed a := by
  refine countUnrevealed_le_of_mono a b (by rw [hMb.pillars_eq, hMa.pillars_eq]) ?_
  intro x hx hbx
  cases hcbx : b.cells x with
  | none =>
      unfold cellProp at hbx
      rw [hcbx] at hbx
      cases hbx
  | some cb =>
      unfold cellProp at hbx
      rw [hcbx] at hbx
      dsimp only at hbx
      obtain ⟨c0, hc0, hsh⟩ := hMb.shape x cb hcbx
      have has : (a.cells x).isSome = true := hMa.dom2 x (by rw [hc0]; rfl)
      cases hcax : a.cells x with
      | none => rw [hcax] at has; cases has
      | some ca =>
          unfold cellProp
          rw [hcax]
          dsimp only
          cases hra : ca.isRevealed with
          | false => rfl
          | true =>
              have hrevb := hmono x (by unfold revealedBool cellProp; rw [hcax]; exact hra)
              unfold revealedBool cellProp at hrevb
              rw [hcbx] at hrevb
              dsimp only at hrevb
              rw [hrevb] at hbx
              cases hbx

/-! ### Branch lemmas for `revealCell` -/

theorem rvc_idle (f : Nat) (s : GameState) (k : Key)
    (hst : s.gameStatus ≠ GameStatus.playing) :
    revealCell (f + 1) s k = s := by
  unfold revealCell
  rw [if_pos hst]

theorem rvc_missing (f : Nat) (s : GameState) (k : Key)
    (hst : s.gameStatus = GameStatus.playing) (hc : s.cells k = none) :
    revealCell (f + 1) s k = s := by
  unfold revealCell
  rw [if_neg (not_not_intro hst)]
  dsimp only
  rw [hc]

theorem rvc_stale (f : Nat) (s : GameState) (k : Key) (c : CellState)
    (hst : s.gameStatus = GameStatus.playing) (hc : s.cells k = some c)
    (hrf : c.isRevealed = true ∨ c.isFlagged = true) :
    revealCell (f + 1) s k = s := by
  unfold revealCell
  rw [if_neg (not_not_intro hst)]
  dsimp only
  rw [hc]
  dsimp only
  rw [if_pos (by rcases hrf with h | h; exact Or.inl h; exact Or.inr h)]

theorem rvc_safe_pos (f : Nat) (s : GameState) (k : Key) (c : CellState)
    (hst : s.gameStatus = GameStatus.playing) (hc : s.cells k = some c)
    (hr : c.isRevealed = false) (hf : c.isFlagged = false) (hm : c.isMine = false)
    (h0 : c.neighborMineCount ≠ 0) :
    revealCell (f + 1) s k =
      (if (countRevealed { s with cells := setCell s.cells k { c with isRevealed := true } } : Int) =
          (({ s with cells := setCell s.cells k { c with isRevealed := true } } : GameState).pillars.length : Int)
            - (s.mineCount : Int)
       then { s with cells := setCell s.cells k { c with isRevealed := true },
                     gameStatus := GameStatus.won }
       else { s with cells := setCell s.cells k { c with isRevealed := true } }) := by
  unfold revealCell
  rw [if_neg (not_not_intro hst)]
  dsimp only
  rw [hc]
  dsimp only
  rw [if_neg (by simp [hr, hf]), if_neg (by simp [hm])]
  rw [if_neg h0]

theorem rvc_safe_zero (f : Nat) (s : GameState) (k : Key) (c : CellState)
    (hst : s.gameStatus = GameStatus.playing) (hc : s.cells k = some c)
    (hr : c.isRevealed = false) (hf : c.isFlagged = false) (hm : c.isMine = false)
    (h0 : c.neighborMineCount = 0) :
    revealCell (f + 1) s k =
      (if (countRevealed ((getNeighbors k s.pillars).foldl (fun t n => revealCell f t n)
              { s with cells := setCell s.cells k { c with isRevealed := true } }) : Int) =
          (((getNeighbors k s.pillars).foldl (fun t n => revealCell f t n)
              { s with cells := setCell s.cells k { c with isRevealed := true } }).pillars.length : Int)
            - (s.mineCount : Int)
       then { (getNeighbors k s.pillars).foldl (fun t n => revealCell f t n)
                { s with cells := setCell s.cells k { c with isRevealed := true } }
              with gameStatus := GameStatus.won }
       else (getNeighbors k s.pillars).foldl (fun t n => revealCell f t n)
              { s with cells := setCell s.cells k { c with isRevealed := true } }) := by
  conv_lhs => rw [revealCell]
  rw [if_neg (not_not_intro hst)]
  dsimp only
  rw [hc]
  dsimp only
  rw [if_neg (by simp [hr, hf]), if_neg (by simp [hm])]
  rw [if_pos h0]

/-- The win check stays synchronized: whenever no safe cell is unrevealed the
status has been set to `won`. -/
def WinSync (s : GameState) : Prop :=
  countSafeUnrevealed s = 0 → s.gameStatus = GameStatus.won

/-- Effect of the final win check of `revealCell` on a mid state. -/
theorem rvc_final (s0 : GameState) (k0 : Key) (hF : Fresh s0) (s2 : GameState)
    (hM2 : Mid s0 k0 s2) (mc : Nat) (hmc : mc = s0.mineCount) :
    Mid s0 k0 (if (countRevealed s2 : Int) = (s2.pillars.length : Int) - (mc : Int)
        then { s2 with gameStatus := GameStatus.won } else s2) ∧
      RevMono s2 (if (countRevealed s2 : Int) = (s2.pillars.length : Int) - (mc : Int)
        then { s2 with gameStatus := GameStatus.won } else s2) ∧
      WinSync (if (countRevealed s2 : Int) = (s2.pillars.length : Int) - (mc : Int)
        then { s2 with gameStatus := GameStatus.won } else s2) ∧
      RevMono (if (countRevealed s2 : Int) = (s2.pillars.length : Int) - (mc : Int)
        then { s2 with gameStatus := GameStatus.won } else s2) s2 := by
  have hform := Mid.win_formula s0 k0 s2 hF hM2
  by_cases hcond : (countRevealed s2 : Int) = (s2.pillars.length : Int) - (mc : Int)
  · rw [if_pos hcond]
    have hcond' : (countRevealed s2 : Int) =
        (s2.pillars.length : Int) - (s2.mineCount : Int) := by
      rw [hM2.mineCount_eq, ← hmc]
      exact hcond
    have hsafe : countSafeUnrevealed s2 = 0 := hform.mp hcond'
    exact ⟨⟨hM2.pillars_eq, hM2.shape, hM2.dom2, hM2.sound, hM2.mineCount_eq,
        hM2.imm_eq, Or.inr rfl, fun _ => hsafe⟩,
      fun y hy => hy, fun _ => rfl, fun y hy => hy⟩
  · rw [if_neg hcond]
    refine ⟨hM2, RevMono.rfl2 s2, ?_, RevMono.rfl2 s2⟩
    intro hsafe
    have h2 := hform.mpr hsafe
    rw [hM2.mineCount_eq, ← hmc] at h2
    exact absurd h2 hcond

/-- Postcondition of the bounded recursive reveal on non-mine targets from a
mid state: the mid invariant is preserved, the revealed set grows
monotonically and saturates at zero-count cells, the win check stays
synchronized, and a valid target ends up revealed. -/
theorem revealCell_post (s0 : GameState) (k0 : Key) (hF : Fresh s0) :
    ∀ (f : Nat) (s : GameState) (x : Key),
      Mid s0 k0 s → (validTarget s0 x → Casc s0 k0 x) →
      cellProp s0 (fun c => c.isMine) x = false →
      countUnrevealed s < f →
      Mid s0 k0 (revealCell f s x) ∧ RevMono s (revealCell f s x) ∧
        Sat s0 s (revealCell f s x) ∧ (WinSync s → WinSync (revealCell f s x)) ∧
        (validTarget s0 x → revealedBool (revealCell f s x) x = true) := by
  intro f
  induction f with
  | zero =>
      intro s x hM hCasc hmx hcnt
      exact absurd hcnt (by omega)
  | succ f ihf =>
      intro s x hM hCasc hmx hcnt
      rcases hM.status_ok with hpl | hwon
      · cases hcx : s.cells x with
        | none =>
            rw [rvc_missing f s x hpl hcx]
            refine ⟨hM, RevMono.rfl2 s, Sat.srefl s0 s, fun h => h, ?_⟩
            intro hv
            obtain ⟨c0, hc0, -⟩ := hv
            have hsome := hM.dom2 x (by rw [hc0]; rfl)
            rw [hcx] at hsome
            cases hsome
        | some cell =>
            obtain ⟨c0, hc0, hmeq, hcnteq, hcfl, himm, hxp0⟩ :=
              Mid.cell_facts s0 k0 s hF hM x cell hcx
            have hm0 : c0.isMine = false := by
              unfold cellProp at hmx
              rw [hc0] at hmx
              exact hmx
            have hvx : validTarget s0 x := ⟨c0, hc0, hm0⟩
            have hmcell : cell.isMine = false := by rw [hmeq]; exact hm0
            cases hrev : cell.isRevealed with
            | true =>
                rw [rvc_stale f s x cell hpl hcx (Or.inl hrev)]
                refine ⟨hM, RevMono.rfl2 s, Sat.srefl s0 s, fun h => h, ?_⟩
                intro _
                unfold revealedBool cellProp
                rw [hcx]
                exact hrev
            | false =>
                have hcascx : Casc s0 k0 x := hCasc hvx
                have hnd : s.pillars.Nodup := by
                  rw [hM.pillars_eq]
                  exact hF.nodup
                have hxp : x ∈ s.pillars := by
                  rw [hM.pillars_eq]
                  exact hxp0
                have hM1 : Mid s0 k0
                    { s with cells := setCell s.cells x { cell with isRevealed := true } } :=
                  Mid.reveal s0 k0 s hF hM x cell hcx hcascx hpl
                    { s with cells := setCell s.cells x { cell with isRevealed := true } }
                    rfl rfl rfl rfl (Or.inl rfl)
                have hmono1 : RevMono s
                    { s with cells := setCell s.cells x { cell with isRevealed := true } } :=
                  revealedBool_setCell_mono s _ x cell rfl
                have hdec1 := countUnrevealed_setCell_reveal s x cell hnd hxp hcx hrev
                  { s with cells := setCell s.cells x { cell with isRevealed := true } }
                  rfl rfl
                by_cases h0 : cell.neighborMineCount = 0
                · have h0x : zeroCell s0 x := ⟨c0, hc0, by rw [← hcnteq]; exact h0⟩
                  have hfold : ∀ (L : List Key),
                      (∀ m ∈ L, validTarget s0 m → Casc s0 k0 m) →
                      (∀ m ∈ L, cellProp s0 (fun d => d.isMine) m = false) →
                      ∀ t : GameState, Mid s0 k0 t → countUnrevealed t < f →
                        Mid s0 k0 (L.foldl (fun u m => revealCell f u m) t) ∧
                        RevMono t (L.foldl (fun u m => revealCell f u m) t) ∧
                        Sat s0 t (L.foldl (fun u m => revealCell f u m) t) ∧
                        (WinSync t → WinSync (L.foldl (fun u m => revealCell f u m) t)) ∧
                        (∀ m ∈ L, validTarget s0 m →
                          revealedBool (L.foldl (fun u m => revealCell f u m) t) m = true) := by
                    intro L
                    induction L with
                    | nil =>
                        intro _ _ t hMt _
                        exact ⟨hMt, RevMono.rfl2 t, Sat.srefl s0 t, fun h => h,
                          fun m hm => absurd hm (List.not_mem_nil m)⟩
                    | cons a L ihL =>
                        intro hcL hmL t hMt hcntt
                        obtain ⟨hM1', hmono1', hsat1', hws1', hrev1'⟩ :=
                          ihf t a hMt (hcL a (List.mem_cons_self a L))
                            (hmL a (List.mem_cons_self a L)) hcntt
                        have hcnt1' : countUnrevealed (revealCell f t a) < f :=
                          lt_of_le_of_lt
                            (countUnrevealed_mono_mid s0 k0 t (revealCell f t a)
                              hMt hM1' hmono1') hcntt
                        obtain ⟨hM2', hmono2', hsat2', hws2', hrev2'⟩ :=
                          ihL (fun m hm h => hcL m (List.mem_cons_of_mem a hm) h)
                            (fun m hm => hmL m (List.mem_cons_of_mem a hm))
                            (revealCell f t a) hM1' hcnt1'
                        rw [List.foldl_cons]
                        refine ⟨hM2',
                          RevMono.trans2 t (revealCell f t a) _ hmono1' hmono2',
                          Sat.strans s0 t (revealCell f t a) _ hmono2' hsat1' hsat2',
                          fun h => hws2' (hws1' h), ?_⟩
                        intro m hm hvm
                        rcases List.mem_cons.mp hm with h1 | h2
                        · rw [h1]
                          exact hmono2' a (hrev1' (h1 ▸ hvm))
                        · exact hrev2' m h2 hvm
                  rw [rvc_safe_zero f s x cell hpl hcx hrev hcfl hmcell h0]
                  obtain ⟨hMF, hmonoF, hsatF, hwsF, hrevL⟩ :=
                    hfold (getNeighbors x s.pillars)
                      (fun m hm hvm => Casc.step x m hcascx h0x
                        (by rw [← hM.pillars_eq]; exact hm) hvm)
                      (fun m hm => (zero_nbrs_valid s0 hF x h0x m
                        (by rw [← hM.pillars_eq]; exact hm)).2)
                      { s with cells := setCell s.cells x { cell with isRevealed := true } }
                      hM1 (by omega)
                  obtain ⟨hMT, hmonoT, hwsT, hmonoT'⟩ :=
                    rvc_final s0 k0 hF _ hMF s.mineCount hM.mineCount_eq
                  refine ⟨hMT, ?_, ?_, fun _ => hwsT, ?_⟩
                  · exact RevMono.trans2 s _ _ hmono1 (RevMono.trans2 _ _ _ hmonoF hmonoT)
                  · intro y hty hsy h0y m hmem hvm
                    have htyF := hmonoT' y hty
                    by_cases hyx : y = x
                    · subst hyx
                      have hmL : m ∈ getNeighbors y s.pillars := by
                        rw [hM.pillars_eq]
                        exact hmem
                      exact hmonoT m (hrevL m hmL hvm)
                    · have hsy1 : revealedBool
                          { s with cells := setCell s.cells x { cell with isRevealed := true } }
                          y = false := by
                        rw [revealedBool_setCell_other s _ x _ rfl y hyx]
                        exact hsy
                      exact hmonoT m (hsatF y htyF hsy1 h0y m hmem hvm)
                  · intro _
                    exact hmonoT x (hmonoF x (revealedBool_setCell_self s _ x cell rfl))
                · rw [rvc_safe_pos f s x cell hpl hcx hrev hcfl hmcell h0]
                  obtain ⟨hMT, hmonoT, hwsT, hmonoT'⟩ :=
                    rvc_final s0 k0 hF _ hM1 s.mineCount hM.mineCount_eq
                  refine ⟨hMT, RevMono.trans2 s _ _ hmono1 hmonoT, ?_, fun _ => hwsT, ?_⟩
                  · intro y hty hsy h0y m hmem hvm
                    have htyS := hmonoT' y hty
                    by_cases hyx : y = x
                    · subst hyx
                      obtain ⟨d0, hd0, hd0c⟩ := h0y
                      rw [hc0] at hd0
                      injection hd0 with he
                      exact absurd (by rw [hcnteq, he]; exact hd0c) h0
                    · rw [revealedBool_setCell_other s _ x _ rfl y hyx] at htyS
                      exact absurd htyS (by rw [hsy]; decide)
                  · intro _
                    exact hmonoT x (revealedBool_setCell_self s _ x cell rfl)
      · rw [rvc_idle f s x (fun h => absurd (hwon.symm.trans h) (by decide))]
        refine ⟨hM, RevMono.rfl2 s, Sat.srefl s0 s, fun h => h, ?_⟩
        intro hv
        exact seed_of_won s0 k0 s hF hM (hM.won_all hwon) x hv

theorem countUnrevealed_le_len (s : GameState) :
    countUnrevealed s ≤ s.pillars.length := by
  unfold countUnrevealed countCells
  exact List.countP_le_length _

theorem addToRevealQueue_qlen (s : GameState) (k : Key) :
    (addToRevealQueue s k).revealQueue.length ≤ s.revealQueue.length + 1 := by
  unfold addToRevealQueue
  cases hck : s.cells k with
  | none => exact Nat.le_succ _
  | some cell =>
      dsimp only
      by_cases hcond : cell.isRevealed = true ∨ cell.isFlagged = true ∨
          ¬s.gameStatus = GameStatus.playing
      · rw [if_pos hcond]
        exact Nat.le_succ _
      · rw [if_neg hcond]
        show (s.revealQueue ++ [k]).length ≤ s.revealQueue.length + 1
        rw [List.length_append]
        exact Nat.le_refl _

/-- Every closure member ends up revealed after the recursion: revealing is
monotone from the fresh board, the start is revealed, and saturation
propagates along closure steps. -/
theorem recursion_complete (s0 : GameState) (k0 : Key) (hF : Fresh s0)
    (t : GameState) (hsat : Sat s0 s0 t)
    (hk0 : validTarget s0 k0 → revealedBool t k0 = true) :
    ∀ x, Casc s0 k0 x → revealedBool t x = true := by
  intro x hx
  induction hx with
  | base hv => exact hk0 hv
  | step y n hy h0 hn hv ih =>
      have hs0y : revealedBool s0 y = false := by
        unfold revealedBool cellProp
        cases hcy : s0.cells y with
        | none => rfl
        | some cy =>
            dsimp only
            exact hF.unrevealed y cy hcy
      exact hsat y ih hs0y h0 n hn hv

/-- Two mid states whose revealed sets both cover the closure have the same
cell map. -/
theorem mid_cells_ext (s0 : GameState) (k0 : Key) (t1 t2 : GameState)
    (h1 : Mid s0 k0 t1) (h2 : Mid s0 k0 t2)
    (hc1 : ∀ x, Casc s0 k0 x → revealedBool t1 x = true)
    (hc2 : ∀ x, Casc s0 k0 x → revealedBool t2 x = true) :
    t1.cells = t2.cells := by
  funext x
  cases hc0 : s0.cells x with
  | none =>
      have e1 : t1.cells x = none := by
        cases hcx : t1.cells x with
        | none => rfl
        | some c =>
            obtain ⟨c0, hc0', -⟩ := h1.shape x c hcx
            rw [hc0] at hc0'
            cases hc0'
      have e2 : t2.cells x = none := by
        cases hcx : t2.cells x with
        | none => rfl
        | some c =>
            obtain ⟨c0, hc0', -⟩ := h2.shape x c hcx
            rw [hc0] at hc0'
            cases hc0'
      rw [e1, e2]
  | some c0 =>
      have hs1 : (t1.cells x).isSome = true := h1.dom2 x (by rw [hc0]; rfl)
      have hs2 : (t2.cells x).isSome = true := h2.dom2 x (by rw [hc0]; rfl)
      cases hcx1 : t1.cells x with
      | none => rw [hcx1] at hs1; cases hs1
      | some c1 =>
          cases hcx2 : t2.cells x with
          | none => rw [hcx2] at hs2; cases hs2
          | some c2 =>
              obtain ⟨d1, hd1, hsh1⟩ := h1.shape x c1 hcx1
              obtain ⟨d2, hd2, hsh2⟩ := h2.shape x c2 hcx2
              rw [hc0] at hd1 hd2
              injection hd1 with he1
              injection hd2 with he2
              have hb : c1.isRevealed = c2.isRevealed := by
                cases hr1 : c1.isRevealed with
                | true =>
                    have hcasc := h1.sound x c1 hcx1 hr1
                    have hrev2 := hc2 x hcasc
                    unfold revealedBool cellProp at hrev2
                    rw [hcx2] at hrev2
                    dsimp only at hrev2
                    exact hrev2.symm
                | false =>
                    cases hr2 : c2.isRevealed with
                    | false => rfl
                    | true =>
                        have hcasc := h2.sound x c2 hcx2 hr2
                        have hrev1 := hc1 x hcasc
                        unfold revealedBool cellProp at hrev1
                        rw [hcx1] at hrev1
                        dsimp only at hrev1
                        rw [hr1] at hrev1
                        cases hrev1
              congr 1
              rw [hsh1, hsh2, ← he1, ← he2, hb]

/-- C8, counterexample to the claim as stated: on the ten-cell board with
mines at `(0,0)` and `(5,0)`, starting the cascade at the mine `(0,0)`, the
queue path reveals every mine (so `(5,0)` is revealed) while the synchronous
recursion reveals only the clicked mine, so the final cell maps differ. -/
theorem claim_C8_counterexample :
    (revealCell 30 wBoard10 ((0 : Int), (0 : Int))).cells ((5 : Int), (0 : Int)) ≠
      (processAll 30 (addToRevealQueue wBoard10 ((0 : Int), (0 : Int)))).cells
        ((5 : Int), (0 : Int)) := by
  decide

/-- The immortal branch of the recursion: revealing an unrevealed, unflagged
mine in immortal mode marks it revealed, flagged and immortal, and stops. -/
theorem rvc_mine_immortal (f : Nat) (s : GameState) (k : Key) (c : CellState)
    (hst : s.gameStatus = GameStatus.playing) (hc : s.cells k = some c)
    (hr : c.isRevealed = false) (hf : c.isFlagged = false) (hm : c.isMine = true)
    (him : s.immortalMode = true) :
    revealCell (f + 1) s k =
      { s with
        cells := setCell s.cells k
          { c with isRevealed := true, isFlagged := true, isImmortalMine := true } } := by
  unfold revealCell
  rw [if_neg (not_not_intro hst)]
  dsimp only
  rw [hc]
  dsimp only
  rw [if_neg (by simp [hr, hf]), if_pos hm, if_pos him]

theorem processAll_empty (n : Nat) (s : GameState) (hq : s.revealQueue = []) :
    processAll n s = s := by
  cases n with
  | zero => rfl
  | succ n =>
      show (if s.revealQueue = [] then s else processAll n (processRevealQueue s)) = s
      rw [if_pos hq]

/-- C8 (amended).  For a freshly initialized non-empty board with distinct
pillar keys, the synchronous recursive reveal and the queue-based cascade
(enqueue, then run `processRevealQueue` to exhaustion) produce the same final
cell map and the same final game status whenever the mode is immortal or the
starting coordinate is not a mine, for any recursion depth exceeding the
board size and any tick budget of at least `7 * size + 2`.  (As stated over
all starts the claim fails in normal mode: on a mine start the queue path
reveals every mine while the recursion reveals only the clicked one.) -/
theorem claim_C8_amended_cascade_equiv (pillars : List Key) (target : Nat)
    (stream : Nat → Nat) (genfuel : Nat) (immortal : Bool) (s0 : GameState)
    (hinit : initializeGame pillars target stream genfuel immortal = some s0)
    (hne : pillars ≠ []) (hnd : pillars.Nodup) (k0 : Key)
    (hscope : immortal = true ∨ cellProp s0 (fun c => c.isMine) k0 = false)
    (f g : Nat) (hf : pillars.length < f) (hg : 7 * pillars.length + 2 ≤ g) :
    (revealCell f s0 k0).cells = (processAll g (addToRevealQueue s0 k0)).cells ∧
    (revealCell f s0 k0).gameStatus =
      (processAll g (addToRevealQueue s0 k0)).gameStatus := by
  have hF := Fresh.ofInit pillars target stream genfuel immortal s0 hinit hnd
  obtain ⟨hp, hstt, hfc, hq0, hirv, him, -⟩ :=
    initializeGame_props pillars target stream genfuel immortal s0 hinit
  cases hk0 : cellProp s0 (fun c => c.isMine) k0 with
  | true =>
      have himmT : immortal = true := by
        rcases hscope with h | h
        · exact h
        · exact absurd (h.symm.trans hk0) (by decide)
      have himm0 : s0.immortalMode = true := by rw [him, himmT]
      cases hck : s0.cells k0 with
      | none =>
          unfold cellProp at hk0
          rw [hck] at hk0
          cases hk0
      | some cell =>
          have hmine : cell.isMine = true := by
            unfold cellProp at hk0
            rw [hck] at hk0
            exact hk0
          have hrv := hF.unrevealed k0 cell hck
          have hfv := hF.unflagged k0 cell hck
          obtain ⟨f2, rfl⟩ : ∃ f2, f = f2 + 1 := ⟨f - 1, by omega⟩
          rw [rvc_mine_immortal f2 s0 k0 cell hstt hck hrv hfv hmine himm0]
          have haddq : addToRevealQueue s0 k0 =
              { s0 with revealQueue := s0.revealQueue ++ [k0], isRevealing := true } := by
            unfold addToRevealQueue
            rw [hck]
            dsimp only
            rw [if_neg (by simp [hrv, hfv, hstt])]
          rw [haddq, hq0, List.nil_append]
          obtain ⟨g2, rfl⟩ : ∃ g2, g = g2 + 1 := ⟨g - 1, by omega⟩
          have h1 : processAll (g2 + 1)
                { s0 with revealQueue := [k0], isRevealing := true } =
              processAll g2 (processRevealQueue
                { s0 with revealQueue := [k0], isRevealing := true }) := by
            show (if ({ s0 with revealQueue := [k0], isRevealing := true }
                  : GameState).revealQueue = []
                then { s0 with revealQueue := [k0], isRevealing := true }
                else processAll g2 (processRevealQueue
                  { s0 with revealQueue := [k0], isRevealing := true })) =
              processAll g2 (processRevealQueue
                { s0 with revealQueue := [k0], isRevealing := true })
            rw [if_neg (by simp)]
          have h2 := prq_mine_immortal
            { s0 with revealQueue := [k0], isRevealing := true }
            k0 [] cell rfl hck hstt hrv hfv hmine himm0
          rw [h1, h2, processAll_empty g2 _ rfl]
          exact ⟨rfl, rfl⟩
  | false =>
      have hE := EngineInv.init pillars target stream genfuel immortal s0 hinit hne hnd
      have hsne : countSafeUnrevealed s0 ≠ 0 := fun h =>
        absurd (hstt.symm.trans (hE.won_iff.mpr h)) (by decide)
      have hws0 : WinSync s0 := fun h => absurd h hsne
      have hcnt0 : countUnrevealed s0 ≤ pillars.length := by
        have h1 := countUnrevealed_le_len s0
        rw [hp] at h1
        exact h1
      obtain ⟨hMr, hmonor, hsatr, hwsr, hrevr⟩ :=
        revealCell_post s0 k0 hF f s0 k0 (Mid.refl s0 k0 hF)
          (fun hv => Casc.base hv) hk0 (by omega)
      have hQ1 := QInv.enqueue_init s0 k0 hF hq0 hk0 hsne
      have hqlen := addToRevealQueue_qlen s0 k0
      rw [hq0, List.length_nil] at hqlen
      have hcntq : countUnrevealed (addToRevealQueue s0 k0) ≤ pillars.length := by
        have h1 := countUnrevealed_le_len (addToRevealQueue s0 k0)
        rw [hQ1.toMid.pillars_eq, hp] at h1
        exact h1
      obtain ⟨hQf, hqe⟩ :=
        QInv.run s0 k0 hF g (addToRevealQueue s0 k0) hQ1 (by omega)
      have hcomp_q := QInv.complete s0 k0 hF _ hQf hqe
      have hcomp_r := recursion_complete s0 k0 hF _ hsatr hrevr
      have hcells : (revealCell f s0 k0).cells =
          (processAll g (addToRevealQueue s0 k0)).cells :=
        mid_cells_ext s0 k0 _ _ hMr hQf.toMid hcomp_r hcomp_q
      refine ⟨hcells, ?_⟩
      have hsafe_eq : countSafeUnrevealed (revealCell f s0 k0) =
          countSafeUnrevealed (processAll g (addToRevealQueue s0 k0)) := by
        unfold countSafeUnrevealed
        refine countCells_congr _ _ ?_ _ _ ?_
        · rw [hMr.pillars_eq, hQf.toMid.pillars_eq]
        · intro x hx
          unfold cellProp
          rw [hcells]
      by_cases h0 : countSafeUnrevealed (processAll g (addToRevealQueue s0 k0)) = 0
      · rw [hQf.wsync h0, hwsr hws0 (by rw [hsafe_eq]; exact h0)]
      · have hr_pl : (revealCell f s0 k0).gameStatus = GameStatus.playing := by
          rcases hMr.status_ok with h | h
          · exact h
          · exact absurd (hsafe_eq ▸ hMr.won_all h) h0
        have hq_pl : (processAll g (addToRevealQueue s0 k0)).gameStatus =
            GameStatus.playing := by
          rcases hQf.toMid.status_ok with h | h
          · exact h
          · exact absurd (hQf.toMid.won_all h) h0
        rw [hr_pl, hq_pl]

/-- Witness for the amended C8 at the ten-cell board: starting at the safe
cell `(9,0)` in normal mode, depth 11 recursion and 72 queue ticks give the
same cell map and status. -/
theorem claim_C8_witness :
    (revealCell 11 wBoard10 ((9 : Int), (0 : Int))).cells =
      (processAll 72 (addToRevealQueue wBoard10 ((9 : Int), (0 : Int)))).cells ∧
    (revealCell 11 wBoard10 ((9 : Int), (0 : Int))).gameStatus =
      (processAll 72 (addToRevealQueue wBoard10 ((9 : Int), (0 : Int)))).gameStatus :=
  claim_C8_amended_cascade_equiv wLayout10 2 wStream5 5 false wBoard10 rfl
    (by decide) (by decide) ((9 : Int), (0 : Int)) (Or.inr (by decide)) 11 72
    (by decide) (by decide)
